import Mathlib

/-! # Verification development for `distance/bitcode_parser/parse_bitcode.cc`

The bitcode parser walks an LLVM module, names functions and basic blocks after
their debug locations, matches blocks against a target list, harvests call
edges and writes five de-duplicated text files; generated graph files are
passed through a line de-duplication.

Conventions of the embedding:

* `std::string` is `Str := List Char`; `substr (pos, n)` is `drop pos` then
  `take n`; `s.compare (0, n, p) == 0` / `startswith` compare the first
  `n` characters.
* `unsigned` line and column numbers are natural numbers (no arithmetic is done
  on them); `std::to_string` and `itostr` are `Nat.repr`.
* an `std::unordered_set<std::string>` is a list used through membership only;
  an output stream is the list of records written so far, oldest first.
* the LLVM module is read-only data: functions, blocks, instructions with the
  fields the parser reads.
-/

namespace ParseBitcode

/-- Byte strings of the program. -/
abbrev Str := List Char

/-! ## `trimStr` -/

/-- The set `whiteSpaces` of `trimStr`. -/
def whiteSpaces : List Char := [' ', '\t', '\n', '\r']

/-- The test `whiteSpaces.find (c) != whiteSpaces.end ()`. -/
def isWhite (c : Char) : Bool := whiteSpaces.contains c

/-- First loop of `trimStr`: advance `left` while `_str[left]` is white space.
The loop runs at most `_str.size()` times; `fuel` is that bound. -/
def trimLeft (s : Str) : Nat → Nat → Nat
  | 0, left => left
  | fuel + 1, left =>
    if left < s.length then
      if !(whiteSpaces.contains (s.getD left ' ')) then left
      else trimLeft s fuel (left + 1)
    else left

/-- Second loop of `trimStr`: move `right` down while `right > left` and
`_str[right]` is white space. -/
def trimRight (s : Str) (left : Nat) : Nat → Nat
  | 0 => 0
  | right + 1 =>
    if right + 1 > left then
      if !(whiteSpaces.contains (s.getD (right + 1) ' ')) then right + 1
      else trimRight s left right
    else right + 1

/-- The function `trimStr`. -/
def trimStr (s : Str) : Str :=
  let left := trimLeft s s.length 0
  if left ≥ s.length then []
  else
    let right := trimRight s left (s.length - 1)
    if left ≤ right then (s.drop left).take (right - left + 1) else []

/-! ## `removeDupLines` -/

/-- One iteration of the reading loop of `removeDupLines`; the state is
`(lineSet, lineList)`. -/
def removeDupLinesStep (st : List Str × List Str) (line : Str) : List Str × List Str :=
  let trimmedStr := trimStr line
  if trimmedStr.isEmpty then (st.1, st.2 ++ [[]])
  else if !(st.1.contains trimmedStr) then (trimmedStr :: st.1, st.2 ++ [line])
  else st

/-- The reading loop of `removeDupLines` over the lines `std::getline` yields. -/
def removeDupLinesLoop (lines : List Str) : List Str × List Str :=
  lines.foldl removeDupLinesStep ([], [])

/-- The function `removeDupLines`, as the map from the lines read from the file
to the lines written back (`lineList`), when the file opens for reading and for
writing; when either open fails the function returns `false` and writes
nothing. -/
def removeDupLines (lines : List Str) : List Str :=
  (removeDupLinesLoop lines).2

/-- A line is blank when its trimmed form is empty. -/
def isBlank (line : Str) : Bool := (trimStr line).isEmpty

/-- The non-blank input lines whose trimmed form is not the trimmed form of an
earlier input line, in input order, with their original text. -/
def firstOccurrences (lines : List Str) : List Str :=
  (lines.enum.filter fun p =>
    !(isBlank p.2) && !(((lines.take p.1).map trimStr).contains (trimStr p.2))).map Prod.snd

/-! ## Strings of the LLVM support library and of the C++ library -/

/-- The test `StringRef::startswith`: `s` is at least as long as `p` and its
first `p.size()` characters are those of `p`. -/
def startswith (s p : Str) : Bool :=
  decide (p.length ≤ s.length) && (s.take p.length == p)

/-- The test `!s.compare (0, n, p)`: the first `n` characters of `s` (fewer when
`s` is shorter) are exactly `p`. -/
def compareEq (s : Str) (n : Nat) (p : Str) : Bool :=
  s.take n == p

/-- The functions `std::to_string (unsigned)` and `itostr`: decimal digits. -/
def to_string (n : Nat) : Str := (Nat.repr n).toList

/-- The function `hexdigit (X, false)` of LLVM: upper-case hexadecimal digit. -/
def hexdigit (x : Nat) : Char :=
  if x < 10 then Char.ofNat (48 + x) else Char.ofNat (55 + x)

/-- Loop of `utohexstr`: prepend the digit of `X & 15` and shift `X` right by
four while `X` is not zero; a 64-bit value takes at most 16 rounds. -/
def utohexstrLoop : Nat → Nat → Str → Str
  | 0, _, buf => buf
  | fuel + 1, x, buf =>
    if x = 0 then buf else utohexstrLoop fuel (x / 16) (hexdigit (x % 16) :: buf)

/-- The function `utohexstr` of LLVM on a 64-bit value. -/
def utohexstr (x : Nat) : Str :=
  if x = 0 then ['0'] else utohexstrLoop 16 x []

/-- The function `std::string::find_last_of` for one character: the index of
its last occurrence, `none` for `npos`. -/
def find_last_of (s : Str) (c : Char) : Option Nat :=
  match s.reverse.indexOf? c with
  | none => none
  | some i => some (s.length - 1 - i)

/-- The function `repSepStr`: every `/` becomes `)`. -/
def repSepStr (prevStr : Str) : Str :=
  prevStr.map fun c => if c == '/' then ')' else c

/-! ## The module as the parser reads it -/

/-- Line, column, directory and file name of a debug location. -/
structure SrcLoc where
  line : Nat
  column : Nat
  directory : Str
  filename : Str

/-- A `DILocation`: its own fields and the chain of inlined-at locations,
nearest first (`getInlinedAt` is the head of the chain, null when empty). -/
structure DILocation extends SrcLoc where
  inlinedChain : List SrcLoc

/-- What is read through a `const Function *` by `isBlacklisted` and
`getFuncLocName`: the symbol name, the GUID and, block by block, the debug
location of every instruction (`none` when the instruction has none). -/
structure FunctionData where
  name : Str
  guid : Nat
  body : List (List (Option DILocation))

/-- An instruction: its debug location and, for a `CallInst`, the result of
`getCalledFunction` (`some none` is a call without a resolved callee). -/
structure Instruction where
  debugLoc : Option DILocation
  call : Option (Option FunctionData)

/-- A basic block: its instructions and the decimal counter the symbol table of
the function appends to the name passed to `setName`, cut to the limit of LLVM
on local names, when another value of the function has that name (`none` when
the name is free). -/
structure BasicBlock where
  insts : List Instruction
  uniq : Option Nat

/-- A function of the module. -/
structure Function where
  name : Str
  guid : Nat
  blocks : List BasicBlock

/-- The view of a module function taken by `isBlacklisted` and
`getFuncLocName`. -/
def Function.data (F : Function) : FunctionData :=
  ⟨F.name, F.guid, F.blocks.map fun BB => BB.insts.map fun I => I.debugLoc⟩

/-! ## `isBlacklisted` -/

/-- The table `Blacklist` of `isBlacklisted`. -/
def Blacklist : List Str :=
  ["asan.".toList, "llvm.".toList, "sancov.".toList, "__ubsan_handle_".toList,
   "free".toList, "malloc".toList, "calloc".toList, "realloc".toList]

/-- The function `isBlacklisted`. -/
def isBlacklisted (F : FunctionData) : Bool :=
  Blacklist.any fun BlacklistFunc => startswith F.name BlacklistFunc

/-! ## Debug locations -/

/-- The function `getDebugLocWithColAndPath` (current debug API). The argument
`I` is `I->getDebugLoc ()`, `none` when the instruction has no location;
`real_path` is the outcome of `sys::fs::real_path` (`none` when it reports an
error). The result is `(Filepath, Line, Column)`. -/
def getDebugLocWithColAndPath (real_path : Str → Option Str) (I : Option DILocation)
    (pathPrefix : Str) : Str × Nat × Nat :=
  match I with
  | none => ([], 0, 0)
  | some Loc =>
    let here : SrcLoc :=
      if Loc.filename.isEmpty then
        match Loc.inlinedChain.head? with
        | some oDILoc => oDILoc
        | none => Loc.toSrcLoc
      else Loc.toSrcLoc
    let Filepath : Str :=
      if !here.filename.isEmpty then
        if here.filename.head? == some '/' then here.filename
        else
          let joined :=
            if here.directory.isEmpty then here.filename
            else here.directory ++ "/".toList ++ here.filename
          match real_path joined with
          | none => joined
          | some AbsPath =>
            if !pathPrefix.isEmpty && decide (AbsPath.length ≥ pathPrefix.length) then
              if compareEq AbsPath pathPrefix.length pathPrefix then
                let rest := AbsPath.drop pathPrefix.length
                if !rest.isEmpty && rest.head? == some '/' then rest.drop 1 else rest
              else AbsPath
            else AbsPath
      else []
    (Filepath, here.line, here.column)

/-- The function `getDebugLocWithPath`: `(Filepath, Line)`. -/
def getDebugLocWithPath (real_path : Str → Option Str) (I : Option DILocation)
    (pathPrefix : Str) : Str × Nat :=
  let r := getDebugLocWithColAndPath real_path I pathPrefix
  (r.1, r.2.1)

/-- Inner loop of `getFuncLocName` over the instructions of one block; `cur` is
`(filename, line)` as left by the previous call. -/
def funcLocScanBlock (real_path : Str → Option Str) (pathPrefix : Str) :
    List (Option DILocation) → Str × Nat → Str × Nat
  | [], cur => cur
  | I :: rest, _ =>
    let r := getDebugLocWithPath real_path I pathPrefix
    if !r.1.isEmpty then r else funcLocScanBlock real_path pathPrefix rest r

/-- Outer loop of `getFuncLocName` over the blocks. -/
def funcLocScan (real_path : Str → Option Str) (pathPrefix : Str) :
    List (List (Option DILocation)) → Str × Nat → Str × Nat
  | [], cur => cur
  | BB :: rest, cur =>
    let r := funcLocScanBlock real_path pathPrefix BB cur
    if !r.1.isEmpty then r else funcLocScan real_path pathPrefix rest r

/-- The function `getFuncLocName`. -/
def getFuncLocName (real_path : Str → Option Str) (F : FunctionData) (pathPrefix : Str) : Str :=
  let r := funcLocScan real_path pathPrefix F.body ([], 0)
  let funcLoc :=
    if !r.1.isEmpty then r.1 ++ ":".toList ++ to_string r.2
    else "0x".toList ++ utohexstr F.guid
  funcLoc ++ ";".toList ++ F.name

/-! ## The first pass of `main` over the module -/

/-- What the first pass reads besides the module: the outcome of
`sys::fs::real_path`, the project root, the loaded target list `bbTargets`, the
dot file directory, and whether the CFG file of a given name can be created. -/
structure Env where
  real_path : Str → Option Str
  projRootDir : Str
  bbTargets : List (Str × Nat)
  dotfiles : Str
  cfgCreate : Str → Bool

/-- An output stream with the set that guards it: `set` is the
`std::unordered_set` (`bbTargetNewSet`, `bbNameSet`, `bbCallSet`, `fNameSet`,
`fTargetSet`) and `lines` the records written to the stream so far. -/
structure Chan where
  set : List Str
  lines : List Str

/-- The guarded write `if (set.find (x) == set.end ()) { set.emplace (x);
stream << x << std::endl; }`. -/
def Chan.write (c : Chan) (x : Str) : Chan :=
  if c.set.contains x then c else ⟨x :: c.set, c.lines ++ [x]⟩

/-- The five text streams (each with its set) and the CFG files written. -/
structure Output where
  bbtargets_new : Chan
  bbnames : Chan
  bbcalls : Chan
  fnames : Chan
  ftargets : Chan
  cfgs : List Str

/-- The state before the traversal: empty sets, truncated files. -/
def Output.init : Output :=
  ⟨⟨[], []⟩, ⟨[], []⟩, ⟨[], []⟩, ⟨[], []⟩, ⟨[], []⟩, []⟩

/-- Variables live in the instruction loop of one block. -/
structure BBState where
  bb_name : Str
  isTarget : Bool
  hasTarget : Bool
  out : Output

/-- Variables live in the block loop of one function. -/
structure FState where
  hasTarget : Bool
  hasBB : Bool
  out : Output

/-- The constant `Xlibs`. -/
def Xlibs : Str := "/usr/".toList

/-- Body of the loop over `bbTargets` for an instruction at `(filename, line)`. -/
def matchTarget (filename : Str) (line : Nat) (s : BBState) (bbTarget : Str × Nat) : BBState :=
  if bbTarget.1 == filename && bbTarget.2 == line then
    if !s.bb_name.isEmpty then
      { bb_name := s.bb_name, isTarget := true, hasTarget := true,
        out := { s.out with bbtargets_new := s.out.bbtargets_new.write s.bb_name } }
    else { bb_name := s.bb_name, isTarget := true, hasTarget := true, out := s.out }
  else s

/-- Body of the loop over the instructions of a block. -/
def instStep (env : Env) (s : BBState) (I : Instruction) : BBState :=
  let r := getDebugLocWithColAndPath env.real_path I.debugLoc env.projRootDir
  let filename := r.1
  let line := r.2.1
  if filename.isEmpty || line == 0 || compareEq filename Xlibs.length Xlibs then s
  else
    let s1 : BBState :=
      if s.bb_name.isEmpty then { s with bb_name := filename ++ ":".toList ++ to_string line }
      else s
    let s2 := env.bbTargets.foldl (matchTarget filename line) s1
    match I.call with
    | some (some calledFunction) =>
      if !isBlacklisted calledFunction then
        let tmpBBCallCont :=
          s2.bb_name ++ ",".toList ++ getFuncLocName env.real_path calledFunction env.projRootDir
        { s2 with out := { s2.out with bbcalls := s2.out.bbcalls.write tmpBBCallCont } }
      else s2
    | _ => s2

/-- The limit LLVM puts on the length of the name of a value that is not
global: `NonGlobalValueMaxNameSize`, the default 1024 of the LLVM option
`-non-global-value-max-name-size`; `main` parses no LLVM option, so the default
is in force. -/
def NonGlobalValueMaxNameSize : Nat := 1024

/-- The name `BB->getName ()` after `BB->setName (name)` of LLVM. A name longer
than the limit on local names is cut to its first `max (1, limit)` characters
(`Value::setNameImpl`); when another value of the function has the resulting
name already, the counter of the symbol table of the function follows it
(`ValueSymbolTable::makeUniqueName`): `uniq` is that counter, `none` when the
name is free. The `LLVMContext` of `main` keeps value names and the block
belongs to a function, so the block has a name after `setName` and the branch
`if (!BB->hasName ())` is not entered. -/
def nameAfterSet (name : Str) (uniq : Option Nat) : Str :=
  let NameRef :=
    if name.length > NonGlobalValueMaxNameSize then name.take (max 1 NonGlobalValueMaxNameSize)
    else name
  match uniq with
  | none => NameRef
  | some k => NameRef ++ to_string k

/-- The string `tmpBBName` written to the block names: the block name up to its
last `:`. -/
def tmpBBNameOf (bb_name : Str) (uniq : Option Nat) : Str :=
  let tmpBBName := nameAfterSet (bb_name ++ ":".toList) uniq
  match find_last_of tmpBBName ':' with
  | some lastIndex => if lastIndex < tmpBBName.length then tmpBBName.take lastIndex else tmpBBName
  | none => tmpBBName

/-- Body of the loop over the blocks of a function. -/
def blockStep (env : Env) (s : FState) (BB : BasicBlock) : FState :=
  let b := BB.insts.foldl (instStep env) ⟨[], false, s.hasTarget, s.out⟩
  if !b.bb_name.isEmpty then
    { hasTarget := b.hasTarget, hasBB := true,
      out := { b.out with bbnames := b.out.bbnames.write (tmpBBNameOf b.bb_name BB.uniq) } }
  else { hasTarget := b.hasTarget, hasBB := s.hasBB, out := b.out }

/-- The name of the CFG file of a function. -/
def cfgFileNameOf (env : Env) (funcLocName : Str) : Str :=
  env.dotfiles ++ "/cfg.".toList ++ repSepStr funcLocName ++ ".dot".toList

/-- Body of the loop over the functions of the module. -/
def funcStep (env : Env) (out : Output) (F : Function) : Output :=
  if isBlacklisted F.data then out
  else
    let funcLocName := getFuncLocName env.real_path F.data env.projRootDir
    let f := F.blocks.foldl (blockStep env) ⟨false, false, out⟩
    if f.hasBB then
      let cfgFileName := cfgFileNameOf env funcLocName
      let o1 : Output :=
        if env.cfgCreate cfgFileName then { f.out with cfgs := f.out.cfgs ++ [cfgFileName] }
        else f.out
      let o2 : Output :=
        if f.hasTarget then { o1 with ftargets := o1.ftargets.write funcLocName } else o1
      { o2 with fnames := o2.fnames.write funcLocName }
    else f.out

/-- The traversal of the module in `main`: the five text artifacts and the CFG
files after the loop over all functions. -/
def firstPass (env : Env) (M : List Function) : Output :=
  M.foldl (funcStep env) Output.init

/-! ## Loading of the target list in `main` -/

/-- What the loading of the targets reads from outside: the function `atoi`,
the test `sys::fs::exists (p) && sys::fs::is_regular_file (p)`, and the project
root. -/
structure LoadEnv where
  atoi : Str → Int
  isRegularFile : Str → Bool
  projRootDir : Str

/-- The string `line.substr (0, pos)` for `pos = line.find_last_of (":")`: the
text before the last `:`, the whole line when there is none. -/
def targetFileNameOf (line : Str) : Str :=
  match find_last_of line ':' with
  | some pos => line.take pos
  | none => line

/-- The string `line.substr (pos + 1)`: the text after the last `:`, the whole
line when there is none (`npos + 1` is 0). -/
def targetLineTextOf (line : Str) : Str :=
  match find_last_of line ':' with
  | some pos => line.drop (pos + 1)
  | none => line

/-- Body of the loop that reads the target file; `none` is `return 1`. -/
def loadTargetStep (lenv : LoadEnv) (bbTargets : List (Str × Nat)) (rawLine : Str) :
    Option (List (Str × Nat)) :=
  let line := trimStr rawLine
  let targetFileName := targetFileNameOf line
  let targetLine := lenv.atoi (targetLineTextOf line)
  if targetLine ≤ 0 then none
  else
    let targetFilePath := lenv.projRootDir ++ "/".toList ++ targetFileName
    if !(lenv.isRegularFile targetFilePath) then none
    else some (bbTargets ++ [(targetFileName, targetLine.toNat)])

/-- The loop that reads the target file, over the lines `std::getline` yields,
from the list `bbTargets` built so far; `none` is `return 1`. -/
def loadTargets (lenv : LoadEnv) : List Str → List (Str × Nat) → Option (List (Str × Nat))
  | [], bbTargets => some bbTargets
  | rawLine :: rest, bbTargets =>
    match loadTargetStep lenv bbTargets rawLine with
    | none => none
    | some bbTargets1 => loadTargets lenv rest bbTargets1

/-- The part of `main` from the loading of the targets to the end of the
traversal; `M` is the module read from the bitcode file, `none` when the dot
file directory cannot be created or the module cannot be read; the result
`none` is `return 1` before any function is visited. -/
def mainTraversal (lenv : LoadEnv) (env : Env) (targetLines : List Str)
    (M : Option (List Function)) : Option Output :=
  match loadTargets lenv targetLines [] with
  | none => none
  | some bbTargets =>
    match M with
    | none => none
    | some M => some (firstPass { env with bbTargets := bbTargets } M)

/-- The pair a line of the target file stands for. -/
def targetPairOf (lenv : LoadEnv) (rawLine : Str) : Str × Nat :=
  (targetFileNameOf (trimStr rawLine), (lenv.atoi (targetLineTextOf (trimStr rawLine))).toNat)

/-- A line of the target file passes both tests of the loop. -/
def targetLineOk (lenv : LoadEnv) (rawLine : Str) : Bool :=
  decide (0 < lenv.atoi (targetLineTextOf (trimStr rawLine))) &&
    lenv.isRegularFile (lenv.projRootDir ++ "/".toList ++ targetFileNameOf (trimStr rawLine))

/-! ## The rename pass of `main` -/

/-- The function `ValueSymbolTable::makeUniqueName` for a global value: append
`.` and the next value of the counter `LastUnique` to the name until no other
global value has the result. The candidates differ from one another, so after
as many taken candidates as there are taken names the next one is free; `fuel`
counts the candidates still to be tested. The result is the name and the
counter. -/
def makeUniqueName (taken : List Str) (base : Str) : Nat → Nat → Str × Nat
  | 0, lastUnique => (base ++ ".".toList ++ to_string (lastUnique + 1), lastUnique + 1)
  | fuel + 1, lastUnique =>
    let candidate := base ++ ".".toList ++ to_string (lastUnique + 1)
    if taken.contains candidate then makeUniqueName taken base fuel (lastUnique + 1)
    else (candidate, lastUnique + 1)

/-- The call `F->setName (name)` of LLVM for a function currently named `cur`
in a module whose other global values have the names `taken`: nothing happens
when the name is the current one, the name is set when no other global value
has it, and it is made unique otherwise. The result is the new name and the
counter of the symbol table. -/
def setNameGlobal (taken : List Str) (cur name : Str) (lastUnique : Nat) : Str × Nat :=
  if cur == name then (cur, lastUnique)
  else if taken.contains name then makeUniqueName taken name taken.length lastUnique
  else (name, lastUnique)

/-- The second loop of `main` over the functions: `done` are the functions
already renamed, the second list the functions still to rename, `others` the
names of the global values that are not functions of the list. -/
def renameLoop (real_path : Str → Option Str) (pathPrefix : Str) (others : List Str) :
    List Function → List Function → Nat → List Function
  | done, [], _ => done
  | done, F :: rest, lastUnique =>
    let funcLocName := getFuncLocName real_path F.data pathPrefix
    let taken := others ++ done.map (fun G => G.name) ++ rest.map (fun G => G.name)
    let r := setNameGlobal taken F.name funcLocName lastUnique
    renameLoop real_path pathPrefix others (done ++ [{ F with name := r.1 }]) rest r.2

/-- The rename pass: the module after the second loop of `main`. -/
def renamePass (real_path : Str → Option Str) (pathPrefix : Str) (others : List Str)
    (M : List Function) (lastUnique : Nat) : List Function :=
  renameLoop real_path pathPrefix others [] M lastUnique

/-! ## Locations, block identifiers and the records offered to the streams -/

/-- The location `(filename, line)` of an instruction when the instruction loop
does not skip it: the file path is not empty, the line is not 0 and the path
does not start with `/usr/`. -/
def usableLoc (env : Env) (I : Instruction) : Option (Str × Nat) :=
  let r := getDebugLocWithColAndPath env.real_path I.debugLoc env.projRootDir
  if r.1.isEmpty || r.2.1 == 0 || compareEq r.1 Xlibs.length Xlibs then none
  else some (r.1, r.2.1)

/-- The text `<filepath>:<line>` of a location. -/
def locName (p : Str × Nat) : Str :=
  p.1 ++ ":".toList ++ to_string p.2

/-- The first usable location among the instructions. -/
def firstUsable (env : Env) (insts : List Instruction) : Option (Str × Nat) :=
  (insts.filterMap (usableLoc env)).head?

/-- The identifier of a block: `<filepath>:<line>` of its first instruction
with a usable location, `none` when it has no such instruction. -/
def blockId (env : Env) (BB : BasicBlock) : Option Str :=
  (firstUsable env BB.insts).map locName

/-- The value of `bb_name` after the instructions `insts` when it was `nm`
before them. -/
def bbNameFrom (env : Env) (nm : Str) (insts : List Instruction) : Str :=
  if nm.isEmpty then
    match firstUsable env insts with
    | some p => locName p
    | none => []
  else nm

/-- A location equals an entry of the target list. -/
def isTargetLoc (env : Env) (p : Str × Nat) : Bool :=
  env.bbTargets.any fun bbTarget => bbTarget.1 == p.1 && bbTarget.2 == p.2

/-- Some instruction has a usable location that is a target entry. -/
def instsHit (env : Env) (insts : List Instruction) : Bool :=
  insts.any fun I =>
    match usableLoc env I with
    | some p => isTargetLoc env p
    | none => false

/-- The records offered to the new target blocks by the instructions `insts`
of a block, `bb_name` being `nm` before them: the block name, once for every
pair of an instruction with a usable location and a target entry equal to it. -/
def targetWritesFrom (env : Env) (nm : Str) (insts : List Instruction) : List Str :=
  (insts.filterMap (usableLoc env)).flatMap fun p =>
    (env.bbTargets.filter fun bbTarget => bbTarget.1 == p.1 && bbTarget.2 == p.2).map
      fun _ => bbNameFrom env nm insts

/-- The record a single instruction offers to the block call edges under the
block name `id`. -/
def callWriteOf (env : Env) (id : Str) (I : Instruction) : List Str :=
  match usableLoc env I, I.call with
  | some _, some (some calledFunction) =>
    if !isBlacklisted calledFunction then
      [id ++ ",".toList ++ getFuncLocName env.real_path calledFunction env.projRootDir]
    else []
  | _, _ => []

/-- The records offered to the block call edges by the instructions `insts`,
`bb_name` being `nm` before them. -/
def callWritesFrom (env : Env) (nm : Str) (insts : List Instruction) : List Str :=
  insts.flatMap (callWriteOf env (bbNameFrom env nm insts))

/-- The record a block offers to the block names. -/
def nameWriteOf (env : Env) (BB : BasicBlock) : List Str :=
  match blockId env BB with
  | some id => [tmpBBNameOf id BB.uniq]
  | none => []

/-- Records offered to the five streams and CFG files written, in order. -/
structure Writes where
  bbtargets_new : List Str
  bbnames : List Str
  bbcalls : List Str
  fnames : List Str
  ftargets : List Str
  cfgs : List Str

/-- Offer the records `ws` to a guarded stream, one after the other. -/
def Chan.writeAll (c : Chan) (ws : List Str) : Chan :=
  ws.foldl Chan.write c

/-- Offer the records of `w` to the streams of `o`. -/
def Output.apply (o : Output) (w : Writes) : Output :=
  { bbtargets_new := o.bbtargets_new.writeAll w.bbtargets_new
    bbnames := o.bbnames.writeAll w.bbnames
    bbcalls := o.bbcalls.writeAll w.bbcalls
    fnames := o.fnames.writeAll w.fnames
    ftargets := o.ftargets.writeAll w.ftargets
    cfgs := o.cfgs ++ w.cfgs }

/-- The blocks of a function offer these records. -/
def blocksWrites (env : Env) (blocks : List BasicBlock) : Writes :=
  { bbtargets_new := blocks.flatMap fun BB => targetWritesFrom env [] BB.insts
    bbnames := blocks.flatMap (nameWriteOf env)
    bbcalls := blocks.flatMap fun BB => callWritesFrom env [] BB.insts
    fnames := []
    ftargets := []
    cfgs := [] }

/-- Some block of the function has an identifier (`hasBB`). -/
def funcHasBB (env : Env) (F : Function) : Bool :=
  F.blocks.any fun BB => (blockId env BB).isSome

/-- Some instruction of the function has a usable location that is a target
entry (`hasTarget`). -/
def funcHasTarget (env : Env) (F : Function) : Bool :=
  F.blocks.any fun BB => instsHit env BB.insts

/-- The records one function of the module offers, in order. -/
def funcWrites (env : Env) (F : Function) : Writes :=
  if isBlacklisted F.data then ⟨[], [], [], [], [], []⟩
  else
    let funcLocName := getFuncLocName env.real_path F.data env.projRootDir
    let w := blocksWrites env F.blocks
    { bbtargets_new := w.bbtargets_new
      bbnames := w.bbnames
      bbcalls := w.bbcalls
      fnames := if funcHasBB env F then [funcLocName] else []
      ftargets := if funcHasBB env F && funcHasTarget env F then [funcLocName] else []
      cfgs :=
        if funcHasBB env F && env.cfgCreate (cfgFileNameOf env funcLocName) then
          [cfgFileNameOf env funcLocName]
        else [] }

/-- The records the module offers to each stream during the traversal, in the
order in which the traversal offers them. -/
def moduleWrites (env : Env) (M : List Function) : Writes :=
  { bbtargets_new := M.flatMap fun F => (funcWrites env F).bbtargets_new
    bbnames := M.flatMap fun F => (funcWrites env F).bbnames
    bbcalls := M.flatMap fun F => (funcWrites env F).bbcalls
    fnames := M.flatMap fun F => (funcWrites env F).fnames
    ftargets := M.flatMap fun F => (funcWrites env F).ftargets
    cfgs := M.flatMap fun F => (funcWrites env F).cfgs }

/-- The position of the first occurrence of `a` in `W` (the length of `W` when
`a` does not occur). -/
def firstIndex (a : Str) : List Str → Nat
  | [] => 0
  | b :: W => if b = a then 0 else firstIndex a W + 1

/-- The stream `lines` holds the records of `W` without repetition, each at
the place of its first occurrence in `W`: it has no two equal records, the
same records as `W`, and of two of its records the earlier one is the one
first offered earlier. -/
def FirstSeenOrder (lines W : List Str) : Prop :=
  lines.Nodup ∧ (∀ r, r ∈ lines ↔ r ∈ W) ∧
    lines.Pairwise fun a b => firstIndex a W < firstIndex b W

/-- The set and the stream of a guarded stream agree, and the stream holds the
records of `W` in first-seen order. -/
def Chan.Tracks (c : Chan) (W : List Str) : Prop :=
  (∀ x, x ∈ c.set ↔ x ∈ c.lines) ∧ FirstSeenOrder c.lines W

/-! ## Notions used to state the path and location rules -/

/-- The location the extractor reads: the inlined-at location when the direct
file name is empty and there is one, the direct location otherwise. -/
def effectiveLoc (Loc : DILocation) : SrcLoc :=
  if Loc.filename.isEmpty then
    match Loc.inlinedChain.head? with
    | some oDILoc => oDILoc
    | none => Loc.toSrcLoc
  else Loc.toSrcLoc

/-- The path handed to `sys::fs::real_path` for a relative file name: the
file name alone for an empty directory, otherwise directory, `/`, file name. -/
def joinedPath (directory filename : Str) : Str :=
  if directory.isEmpty then filename else directory ++ "/".toList ++ filename

/-- A path with the prefix `pathPrefix` and the `/` that follows it, if any,
removed. -/
def stripRoot (pathPrefix path : Str) : Str :=
  if (path.drop pathPrefix.length).head? = some '/' then (path.drop pathPrefix.length).drop 1
  else path.drop pathPrefix.length

/-- The file path computed by `getDebugLocWithColAndPath` from the directory
and the file name of the location it reads (the Path Resolver). -/
def resolvedPath (real_path : Str → Option Str) (Directory Filename pathPrefix : Str) : Str :=
  if !Filename.isEmpty then
    if Filename.head? == some '/' then Filename
    else
      match real_path (joinedPath Directory Filename) with
      | none => joinedPath Directory Filename
      | some AbsPath =>
        if !pathPrefix.isEmpty && decide (AbsPath.length ≥ pathPrefix.length) then
          if compareEq AbsPath pathPrefix.length pathPrefix then
            let rest := AbsPath.drop pathPrefix.length
            if !rest.isEmpty && rest.head? == some '/' then rest.drop 1 else rest
          else AbsPath
        else AbsPath
  else []

/-- The first location with a non-empty resolved file path among the
instructions of the blocks, in order. -/
def firstLocated (real_path : Str → Option Str) (pathPrefix : Str)
    (body : List (List (Option DILocation))) : Option (Str × Nat) :=
  ((body.flatten.map fun I => getDebugLocWithPath real_path I pathPrefix).filter
    fun r => !r.1.isEmpty).head?

/-- A debug location in file `f` at line `l`, column 1, no directory, not
inlined. -/
def exLoc (f : Str) (l : Nat) : Option DILocation :=
  some ⟨⟨l, 1, [], f⟩, []⟩

/-- Project root `/root`; every relative path canonicalizes to the same path
under the root; one target `a.c:12`; every CFG file can be created. -/
def exEnv : Env :=
  ⟨fun p => some ("/root/".toList ++ p), "/root".toList, [("a.c".toList, 12)],
    "out/dot-files".toList, fun _ => true⟩

/-- A callee `g` without debug locations and with GUID 255. -/
def exCallee : FunctionData := ⟨"g".toList, 255, []⟩

/-- An instruction at `a.c:10` that is not a call. -/
def exI1 : Instruction := ⟨exLoc "a.c".toList 10, none⟩

/-- An instruction at `a.c:12` that is not a call. -/
def exI2 : Instruction := ⟨exLoc "a.c".toList 12, none⟩

/-- A direct call of `g` without debug location. -/
def exI3 : Instruction := ⟨none, some (some exCallee)⟩

/-- A direct call of `g` at `a.c:13`. -/
def exI4 : Instruction := ⟨exLoc "a.c".toList 13, some (some exCallee)⟩

/-- A block whose first instruction is at line 10 and whose second is at the
target line 12, followed by the two calls. -/
def exBB : BasicBlock := ⟨[exI1, exI2, exI3, exI4], none⟩

/-- The function `f` made of `exBB`. -/
def exF : Function := ⟨"f".toList, 1, [exBB]⟩

/-- The module made of `exF`. -/
def exM : List Function := [exF]

/-- A block with an instruction at `a.c:10` and a call of `g` that has no
debug location. -/
def exBBcall : BasicBlock := ⟨[exI1, exI3], none⟩

/-- The function `f` made of `exBBcall`. -/
def exFcall : Function := ⟨"f".toList, 1, [exBBcall]⟩

/-- The module made of `exFcall`. -/
def exMcall : List Function := [exFcall]

/-- A function with the blocks of `exF` whose name starts with `malloc`. -/
def exFmalloc : Function := ⟨"malloc_usable_size".toList, 2, [exBB]⟩

/-- A location in directory `/root/src` with file name `..`, line 3. -/
def exLocUp : DILocation := ⟨⟨3, 1, "/root/src".toList, "..".toList⟩, []⟩

/-- A canonicalization that maps every path to the project root `/root`, as it
does for `/root/src/..`. -/
def exRealPathRoot : Str → Option Str := fun _ => some "/root".toList

/-- A location with the absolute file name `/root/src/foo.c`, line 12,
column 3. -/
def exLocAbs : DILocation := ⟨⟨12, 3, [], "/root/src/foo.c".toList⟩, []⟩

/-- A location with file name `a.c`, line 10, and an empty directory. -/
def exLocNoDir : DILocation := ⟨⟨10, 1, [], "a.c".toList⟩, []⟩

/-- A location with file name `foo.c` in directory `/root/src`, line 12,
column 3. -/
def exLocRel : DILocation := ⟨⟨12, 3, "/root/src".toList, "foo.c".toList⟩, []⟩

/-- A location without file name at line 7, inlined at `a.c:20`, itself
inlined at `b.c:30`. -/
def exLocInlined : DILocation :=
  ⟨⟨7, 2, [], []⟩, [⟨20, 5, [], "a.c".toList⟩, ⟨30, 1, [], "b.c".toList⟩]⟩

/-- A function `f` with GUID 1 whose only instruction is at line 5 of the
system header `/usr/include/x.h`. -/
def exFusr : Function :=
  ⟨"f".toList, 1, [⟨[⟨some ⟨⟨5, 1, [], "/usr/include/x.h".toList⟩, []⟩, none⟩], none⟩]⟩

/-- A function named `b:5;g` whose only instruction is at line 0 of `a.c`. -/
def exFzero : Function :=
  ⟨"b:5;g".toList, 2, [⟨[⟨exLoc "a.c".toList 0, none⟩], none⟩]⟩

/-- A function named `g` whose only instruction is at line 5 of the file
`a.c:0;b`. -/
def exFsemi : Function :=
  ⟨"g".toList, 3, [⟨[⟨exLoc "a.c:0;b".toList 5, none⟩], none⟩]⟩

/-- The module made of `exFsemi` and `exFzero`. -/
def exMcollide : List Function := [exFsemi, exFzero]

/-- Project root `/root`, paths already canonical, the one target
`src/foo.c:12`. -/
def exEnvFoo : Env :=
  ⟨fun p => some p, "/root".toList, [("src/foo.c".toList, 12)], "out/dot-files".toList,
    fun _ => true⟩

/-- An instruction whose location has the absolute file name
`/root/src/foo.c`, line 12, column 3. -/
def exIfooAbs : Instruction := ⟨some exLocAbs, none⟩

/-- The function `f` with one block made of `exIfooAbs`. -/
def exFfooAbs : Function := ⟨"f".toList, 1, [⟨[exIfooAbs], none⟩]⟩

/-- An instruction whose location is `foo.c` in directory `/root/src`, line 12,
column 3. -/
def exIfooRel : Instruction := ⟨some exLocRel, none⟩

/-- The function `f` with one block made of `exIfooRel`. -/
def exFfooRel : Function := ⟨"f".toList, 1, [⟨[exIfooRel], none⟩]⟩

/-- The value of the leading decimal digits of a text, most significant
first, from the value `acc` read so far. -/
def exAtoiDigits : Str → Int → Int
  | [], acc => acc
  | c :: rest, acc =>
    if c.isDigit then exAtoiDigits rest (acc * 10 + (c.toNat - 48 : Nat)) else acc

/-- The test `isspace` in the C locale: space, tab, line feed, vertical tab,
form feed, carriage return. -/
def exIsSpace (c : Char) : Bool :=
  c.toNat == 32 || (decide (9 ≤ c.toNat) && decide (c.toNat ≤ 13))

/-- The function `atoi` as the GNU C library computes it where `long` has 64
bits and `int` 32, `(int) strtol (s, NULL, 10)`: white space is skipped, an
optional sign is read, then the decimal digits; the value is kept within the
range of `long` and its low 32 bits are read as a signed number. -/
def exAtoi (s : Str) : Int :=
  let t := s.dropWhile exIsSpace
  let long : Int :=
    match t with
    | '-' :: ds => max (-(exAtoiDigits ds 0)) (-9223372036854775808)
    | '+' :: ds => min (exAtoiDigits ds 0) 9223372036854775807
    | _ => min (exAtoiDigits t 0) 9223372036854775807
  (long + 2147483648) % 4294967296 - 2147483648

/-- A loading environment: `atoi` of the GNU C library, the files
`/root/src/foo.c` and `/root/a.c`, the project root `/root`. -/
def exLoadEnv : LoadEnv :=
  ⟨exAtoi, fun p => p == "/root/src/foo.c".toList || p == "/root/a.c".toList, "/root".toList⟩

/-- A function `h` with GUID 255 whose only instruction has no debug
location. -/
def exFnoLoc : Function := ⟨"h".toList, 255, [⟨[⟨none, none⟩], none⟩]⟩

/-- The function `g` whose only instruction is at line 5 of the file
`0xFF;x`. -/
def exFhashFile : Function :=
  ⟨"g".toList, 3, [⟨[⟨exLoc "0xFF;x".toList 5, none⟩], none⟩]⟩

/-- The function named `x:5;g` with GUID 255 whose only instruction has no
debug location. -/
def exFhashName : Function := ⟨"x:5;g".toList, 255, [⟨[⟨none, none⟩], none⟩]⟩

/-- The module made of `exFhashFile` and `exFhashName`. -/
def exMhash : List Function := [exFhashFile, exFhashName]

/-! # Theorems -/

/-! ## The reading loop of `removeDupLines` -/

theorem trimStr_nil : trimStr [] = [] := by decide

theorem isBlank_nil : isBlank [] = true := by decide

theorem isBlank_iff (x : Str) : isBlank x = true ↔ trimStr x = [] := by
  simp [isBlank]

theorem removeDupLinesLoop_snoc (xs : List Str) (x : Str) :
    removeDupLinesLoop (xs ++ [x]) = removeDupLinesStep (removeDupLinesLoop xs) x := by
  simp [removeDupLinesLoop, List.foldl_append]

theorem step_blank (st : List Str × List Str) (x : Str) (h : isBlank x = true) :
    removeDupLinesStep st x = (st.1, st.2 ++ [[]]) := by
  have h2 : (trimStr x).isEmpty = true := h
  simp [removeDupLinesStep, h2]

theorem step_seen (st : List Str × List Str) (x : Str) (h : isBlank x = false)
    (hs : trimStr x ∈ st.1) : removeDupLinesStep st x = st := by
  have h2 : (trimStr x).isEmpty = false := h
  simp [removeDupLinesStep, h2, hs]

theorem step_new (st : List Str × List Str) (x : Str) (h : isBlank x = false)
    (hs : trimStr x ∉ st.1) :
    removeDupLinesStep st x = (trimStr x :: st.1, st.2 ++ [x]) := by
  have h2 : (trimStr x).isEmpty = false := h
  simp [removeDupLinesStep, h2, hs]

theorem firstOccurrences_snoc (xs : List Str) (x : Str) :
    firstOccurrences (xs ++ [x]) = firstOccurrences xs ++
      (if isBlank x = false ∧ trimStr x ∉ xs.map trimStr then [x] else []) := by
  unfold firstOccurrences
  rw [List.enum_append, List.filter_append, List.map_append]
  congr 1
  · congr 1
    apply List.filter_congr
    intro p hp
    have hlt := List.fst_lt_of_mem_enum hp
    rw [List.take_append_of_le_length (Nat.le_of_lt hlt)]
  · simp only [List.enumFrom_cons, List.enumFrom_nil, List.filter_cons, List.filter_nil]
    rw [List.take_left]
    by_cases hb : isBlank x = true
    · simp [hb]
    · have hb2 : isBlank x = false := by simpa using hb
      by_cases hm : trimStr x ∈ xs.map trimStr
      · have : (xs.map trimStr).contains (trimStr x) = true := by simpa using hm
        simp only [this, hb2]
        simp [hm]
      · have : (xs.map trimStr).contains (trimStr x) = false := by simpa using hm
        simp only [this, hb2]
        simp [hm]

theorem mem_lineSet (xs : List Str) (t : Str) :
    t ∈ (removeDupLinesLoop xs).1 ↔ (t ≠ [] ∧ t ∈ xs.map trimStr) := by
  induction xs using List.reverseRecOn generalizing t with
  | nil => simp [removeDupLinesLoop]
  | append_singleton xs x ih =>
    rw [removeDupLinesLoop_snoc]
    simp only [List.map_append, List.map_cons, List.map_nil, List.mem_append, List.mem_singleton]
    by_cases hb : isBlank x = true
    · rw [step_blank _ _ hb]
      have : trimStr x = [] := (isBlank_iff x).1 hb
      simp only [ih]
      constructor
      · rintro ⟨h1, h2⟩; exact ⟨h1, Or.inl h2⟩
      · rintro ⟨h1, h2 | h2⟩
        · exact ⟨h1, h2⟩
        · exact absurd (h2.trans this) h1
    · have hb2 : isBlank x = false := by simpa using hb
      have hne : trimStr x ≠ [] := fun h => hb ((isBlank_iff x).2 h)
      by_cases hc : trimStr x ∈ (removeDupLinesLoop xs).1
      · rw [step_seen _ _ hb2 hc, ih]
        have := ((ih _).1 hc).2
        constructor
        · rintro ⟨h1, h2⟩; exact ⟨h1, Or.inl h2⟩
        · rintro ⟨h1, h2 | h2⟩
          · exact ⟨h1, h2⟩
          · exact ⟨h1, h2 ▸ this⟩
      · rw [step_new _ _ hb2 hc]
        simp only [List.mem_cons, ih]
        constructor
        · rintro (h | ⟨h1, h2⟩)
          · exact ⟨h ▸ hne, Or.inr h⟩
          · exact ⟨h1, Or.inl h2⟩
        · rintro ⟨h1, h2 | h2⟩
          · exact Or.inr ⟨h1, h2⟩
          · exact Or.inl h2

theorem kept_eq_firstOccurrences (xs : List Str) :
    (removeDupLines xs).filter (fun l => !(isBlank l)) = firstOccurrences xs := by
  unfold removeDupLines
  induction xs using List.reverseRecOn with
  | nil => simp [removeDupLinesLoop, firstOccurrences]
  | append_singleton xs x ih =>
    rw [removeDupLinesLoop_snoc, firstOccurrences_snoc, ← ih]
    by_cases hb : isBlank x = true
    · rw [step_blank _ _ hb]
      simp [hb, List.filter_append, isBlank_nil]
    · have hb2 : isBlank x = false := by simpa using hb
      have hne : trimStr x ≠ [] := fun h => hb ((isBlank_iff x).2 h)
      by_cases hc : trimStr x ∈ (removeDupLinesLoop xs).1
      · rw [step_seen _ _ hb2 hc]
        have h2 := ((mem_lineSet xs (trimStr x)).1 hc).2
        simp [hb2, h2]
      · rw [step_new _ _ hb2 hc]
        have h2 : trimStr x ∉ xs.map trimStr := fun h =>
          hc ((mem_lineSet xs (trimStr x)).2 ⟨hne, h⟩)
        simp [hb2, h2, List.filter_append]

theorem blank_eq_replicate (xs : List Str) :
    (removeDupLines xs).filter isBlank = List.replicate (xs.filter isBlank).length [] := by
  unfold removeDupLines
  induction xs using List.reverseRecOn with
  | nil => simp [removeDupLinesLoop]
  | append_singleton xs x ih =>
    rw [removeDupLinesLoop_snoc]
    by_cases hb : isBlank x = true
    · rw [step_blank _ _ hb]
      simp [hb, List.filter_append, isBlank_nil, ih, List.replicate_add]
    · have hb2 : isBlank x = false := by simpa using hb
      by_cases hc : trimStr x ∈ (removeDupLinesLoop xs).1
      · rw [step_seen _ _ hb2 hc]
        simp [hb2, List.filter_append, ih]
      · rw [step_new _ _ hb2 hc]
        simp [hb2, List.filter_append, ih]

theorem mem_firstOccurrences (xs : List Str) (l : Str) (h : l ∈ firstOccurrences xs) : l ∈ xs := by
  unfold firstOccurrences at h
  rw [List.mem_map] at h
  obtain ⟨p, hp, rfl⟩ := h
  exact List.snd_mem_of_mem_enum (List.mem_filter.1 hp).1

theorem nodup_firstOccurrences (xs : List Str) : ((firstOccurrences xs).map trimStr).Nodup := by
  induction xs using List.reverseRecOn with
  | nil => simp [firstOccurrences]
  | append_singleton xs x ih =>
    rw [firstOccurrences_snoc]
    split
    · rename_i h
      rw [List.map_append, List.nodup_append]
      refine ⟨ih, by simp, ?_⟩
      intro t ht ht2
      simp only [List.map_cons, List.map_nil, List.mem_singleton] at ht2
      subst ht2
      apply h.2
      rw [List.mem_map] at ht ⊢
      obtain ⟨l, hl, e⟩ := ht
      exact ⟨l, mem_firstOccurrences xs l hl, e⟩
    · simpa using ih

theorem trims_preserved (xs : List Str) : xs.map trimStr ⊆ (removeDupLines xs).map trimStr := by
  unfold removeDupLines
  induction xs using List.reverseRecOn with
  | nil => simp
  | append_singleton xs x ih =>
    rw [removeDupLinesLoop_snoc]
    have mono : ∀ st : List Str × List Str, st.2.map trimStr ⊆ (removeDupLinesStep st x).2.map trimStr := by
      intro st
      by_cases hb : isBlank x = true
      · rw [step_blank _ _ hb]; simp
      · have hb2 : isBlank x = false := by simpa using hb
        by_cases hc : trimStr x ∈ st.1
        · rw [step_seen _ _ hb2 hc]; simp
        · rw [step_new _ _ hb2 hc]; simp
    intro t ht
    simp only [List.map_append, List.map_cons, List.map_nil, List.mem_append, List.mem_singleton] at ht
    rcases ht with ht | ht
    · exact mono _ (ih ht)
    · subst ht
      by_cases hb : isBlank x = true
      · rw [step_blank _ _ hb]
        simp [(isBlank_iff x).1 hb, trimStr_nil]
      · have hb2 : isBlank x = false := by simpa using hb
        have hne : trimStr x ≠ [] := fun h => hb ((isBlank_iff x).2 h)
        by_cases hc : trimStr x ∈ (removeDupLinesLoop xs).1
        · rw [step_seen _ _ hb2 hc]
          exact ih ((mem_lineSet xs _).1 hc).2
        · rw [step_new _ _ hb2 hc]; simp

/-! ## Guarded streams keep first-seen order -/

theorem firstIndex_append_of_mem (a : Str) (W V : List Str) (h : a ∈ W) :
    firstIndex a (W ++ V) = firstIndex a W := by
  induction W with
  | nil => simp at h
  | cons b W ih =>
    by_cases hb : b = a
    · simp [firstIndex, hb]
    · have : a ∈ W := by
        rcases List.mem_cons.1 h with h | h
        · exact absurd h.symm hb
        · exact h
      simp [firstIndex, hb, ih this]

theorem firstIndex_append_of_not_mem (a : Str) (W V : List Str) (h : a ∉ W) :
    firstIndex a (W ++ V) = W.length + firstIndex a V := by
  induction W with
  | nil => simp
  | cons b W ih =>
    have hb : ¬ b = a := fun e => h (by simp [e])
    have : a ∉ W := fun e => h (List.mem_cons_of_mem _ e)
    simp [firstIndex, hb, ih this]
    omega

theorem firstIndex_lt_length (a : Str) (W : List Str) (h : a ∈ W) :
    firstIndex a W < W.length := by
  induction W with
  | nil => simp at h
  | cons b W ih =>
    by_cases hb : b = a
    · simp [firstIndex, hb]
    · have : a ∈ W := by
        rcases List.mem_cons.1 h with h | h
        · exact absurd h.symm hb
        · exact h
      simp [firstIndex, hb, ih this]

theorem Chan.tracks_init : Chan.Tracks ⟨[], []⟩ [] := by
  simp [Chan.Tracks, FirstSeenOrder]

theorem Chan.tracks_write (c : Chan) (W : List Str) (x : Str) (h : c.Tracks W) :
    (c.write x).Tracks (W ++ [x]) := by
  obtain ⟨hs, hn, hm, hp⟩ := h
  unfold Chan.write
  by_cases hx : x ∈ c.set
  · have hxW : x ∈ W := (hm x).1 ((hs x).1 hx)
    have : c.set.contains x = true := by simpa using hx
    simp only [this, if_true]
    refine ⟨hs, hn, ?_, ?_⟩
    · intro r
      rw [hm r, List.mem_append, List.mem_singleton]
      constructor
      · exact Or.inl
      · rintro (h | h)
        · exact h
        · exact h ▸ hxW
    · refine List.Pairwise.imp_of_mem ?_ hp
      intro a b ha hb hab
      rw [firstIndex_append_of_mem _ _ _ ((hm a).1 ha), firstIndex_append_of_mem _ _ _ ((hm b).1 hb)]
      exact hab
  · have hxl : x ∉ c.lines := fun h => hx ((hs x).2 h)
    have hxW : x ∉ W := fun h => hxl ((hm x).2 h)
    have : c.set.contains x = false := by simpa using hx
    simp only [this, Bool.false_eq_true, if_false]
    refine ⟨?_, ?_, ?_, ?_⟩
    · intro r
      simp only [List.mem_cons, List.mem_append, List.mem_singleton, hs r]
      tauto
    · rw [List.nodup_append]
      refine ⟨hn, by simp, ?_⟩
      intro a ha ha2
      rw [List.mem_singleton] at ha2
      exact hxl (ha2 ▸ ha)
    · intro r
      simp only [List.mem_append, List.mem_singleton, hm r]
    · rw [List.pairwise_append]
      refine ⟨?_, by simp, ?_⟩
      · refine List.Pairwise.imp_of_mem ?_ hp
        intro a b ha hb hab
        rw [firstIndex_append_of_mem _ _ _ ((hm a).1 ha), firstIndex_append_of_mem _ _ _ ((hm b).1 hb)]
        exact hab
      · intro a ha b hb
        rw [List.mem_singleton] at hb
        subst hb
        rw [firstIndex_append_of_mem _ _ _ ((hm a).1 ha), firstIndex_append_of_not_mem _ _ _ hxW]
        have := firstIndex_lt_length _ _ ((hm a).1 ha)
        omega

theorem Chan.tracks_writeAll (ws : List Str) (c : Chan) (W : List Str) (h : c.Tracks W) :
    (c.writeAll ws).Tracks (W ++ ws) := by
  induction ws generalizing c W with
  | nil => simpa [Chan.writeAll] using h
  | cons x rest ih =>
    have := ih (c.write x) (W ++ [x]) (Chan.tracks_write c W x h)
    simpa [Chan.writeAll, List.append_assoc] using this

theorem Chan.writeAll_nil (c : Chan) : c.writeAll [] = c := rfl

theorem Chan.writeAll_append (c : Chan) (a b : List Str) :
    (c.writeAll a).writeAll b = c.writeAll (a ++ b) := by
  simp [Chan.writeAll, List.foldl_append]

theorem Chan.writeAll_singleton (c : Chan) (x : Str) : c.writeAll [x] = c.write x := rfl

theorem Output.apply_apply (o : Output) (a b : Writes) :
    (o.apply a).apply b =
      o.apply ⟨a.bbtargets_new ++ b.bbtargets_new, a.bbnames ++ b.bbnames, a.bbcalls ++ b.bbcalls,
        a.fnames ++ b.fnames, a.ftargets ++ b.ftargets, a.cfgs ++ b.cfgs⟩ := by
  simp [Output.apply, Chan.writeAll_append, List.append_assoc]

theorem Output.apply_nil (o : Output) : o.apply ⟨[], [], [], [], [], []⟩ = o := by
  simp [Output.apply, Chan.writeAll_nil]

/-! ## The traversal offers the records of `moduleWrites` -/

theorem locName_ne_nil (p : Str × Nat) : locName p ≠ [] := by
  simp [locName]

theorem foldl_matchTarget (f : Str) (l : Nat) (targets : List (Str × Nat)) (s : BBState)
    (hne : s.bb_name ≠ []) :
    targets.foldl (matchTarget f l) s =
      ⟨s.bb_name, s.isTarget || targets.any (fun t => t.1 == f && t.2 == l),
        s.hasTarget || targets.any (fun t => t.1 == f && t.2 == l),
        s.out.apply ⟨(targets.filter fun t => t.1 == f && t.2 == l).map fun _ => s.bb_name,
          [], [], [], [], []⟩⟩ := by
  induction targets generalizing s with
  | nil => simp [Output.apply, Chan.writeAll]
  | cons t rest ih =>
    have he : s.bb_name.isEmpty = false := by simpa using hne
    rw [List.foldl_cons]
    by_cases ht : (t.1 == f && t.2 == l) = true
    · have hstep : matchTarget f l s t =
          ⟨s.bb_name, true, true, s.out.apply ⟨[s.bb_name], [], [], [], [], []⟩⟩ := by
        simp [matchTarget, ht, he, Output.apply, Chan.writeAll]
      rw [hstep, ih]
      · simp [ht, Output.apply, Chan.writeAll]
      · exact hne
    · have hstep : matchTarget f l s t = s := by
        simp [matchTarget, ht]
      rw [hstep, ih _ hne]
      simp [ht]

theorem instStep_skip (env : Env) (s : BBState) (I : Instruction) (h : usableLoc env I = none) :
    instStep env s I = s := by
  unfold usableLoc at h
  unfold instStep
  simp only at h ⊢
  split at h
  · rename_i hc
    simp only [hc, if_true]
  · simp at h

theorem instStep_usable (env : Env) (s : BBState) (I : Instruction) (p : Str × Nat)
    (h : usableLoc env I = some p) :
    instStep env s I =
      ⟨if s.bb_name.isEmpty then locName p else s.bb_name,
        s.isTarget || isTargetLoc env p, s.hasTarget || isTargetLoc env p,
        s.out.apply
          ⟨(env.bbTargets.filter fun t => t.1 == p.1 && t.2 == p.2).map
              fun _ => if s.bb_name.isEmpty then locName p else s.bb_name,
            [], callWriteOf env (if s.bb_name.isEmpty then locName p else s.bb_name) I,
            [], [], []⟩⟩ := by
  have hne : (if s.bb_name.isEmpty then locName p else s.bb_name) ≠ [] := by
    split
    · exact locName_ne_nil p
    · rename_i h; simpa using h
  unfold callWriteOf
  rw [h]
  unfold usableLoc at h
  unfold instStep
  simp only at h ⊢
  split at h
  · simp at h
  · rename_i hc
    simp only [Option.some.injEq] at h
    simp only [hc, if_false]
    have e1 : (getDebugLocWithColAndPath env.real_path I.debugLoc env.projRootDir).1 = p.1 := by
      rw [← h]
    have e2 : (getDebugLocWithColAndPath env.real_path I.debugLoc env.projRootDir).2.1 = p.2 := by
      rw [← h]
    rw [e1, e2]
    have hs1 : (if s.bb_name.isEmpty = true then
        ({ s with bb_name := p.1 ++ ":".toList ++ to_string p.2 } : BBState) else s) =
        ⟨if s.bb_name.isEmpty then locName p else s.bb_name, s.isTarget, s.hasTarget, s.out⟩ := by
      split <;> simp [locName]
    rw [hs1, foldl_matchTarget _ _ _ _ (by exact hne)]
    cases hcall : I.call with
    | none => simp [isTargetLoc, Output.apply, Chan.writeAll]
    | some c =>
      cases c with
      | none => simp [isTargetLoc, Output.apply, Chan.writeAll]
      | some cf =>
        by_cases hb : isBlacklisted cf = true
        · simp [hb, isTargetLoc, Output.apply, Chan.writeAll]
        · simp [hb, isTargetLoc, Output.apply, Chan.writeAll]

theorem bbNameFrom_of_ne (env : Env) (nm : Str) (insts : List Instruction) (h : nm ≠ []) :
    bbNameFrom env nm insts = nm := by
  have : nm.isEmpty = false := by simpa using h
  simp [bbNameFrom, this]

theorem firstUsable_cons_none (env : Env) (I : Instruction) (rest : List Instruction)
    (h : usableLoc env I = none) : firstUsable env (I :: rest) = firstUsable env rest := by
  simp [firstUsable, List.filterMap_cons, h]

theorem firstUsable_cons_some (env : Env) (I : Instruction) (rest : List Instruction)
    (p : Str × Nat) (h : usableLoc env I = some p) : firstUsable env (I :: rest) = some p := by
  simp [firstUsable, List.filterMap_cons, h]

theorem bbNameFrom_cons_none (env : Env) (nm : Str) (I : Instruction) (rest : List Instruction)
    (h : usableLoc env I = none) : bbNameFrom env nm (I :: rest) = bbNameFrom env nm rest := by
  simp [bbNameFrom, firstUsable_cons_none env I rest h]

theorem bbNameFrom_cons_some (env : Env) (nm : Str) (I : Instruction) (rest : List Instruction)
    (p : Str × Nat) (h : usableLoc env I = some p) :
    bbNameFrom env nm (I :: rest) = if nm.isEmpty then locName p else nm := by
  simp [bbNameFrom, firstUsable_cons_some env I rest p h]

theorem nameStep_ne_nil (nm : Str) (p : Str × Nat) :
    (if nm.isEmpty then locName p else nm) ≠ [] := by
  split
  · exact locName_ne_nil p
  · rename_i h; simpa using h

theorem targetWritesFrom_cons_none (env : Env) (nm : Str) (I : Instruction)
    (rest : List Instruction) (h : usableLoc env I = none) :
    targetWritesFrom env nm (I :: rest) = targetWritesFrom env nm rest := by
  simp [targetWritesFrom, List.filterMap_cons, h, bbNameFrom_cons_none env nm I rest h]

theorem targetWritesFrom_cons_some (env : Env) (nm : Str) (I : Instruction)
    (rest : List Instruction) (p : Str × Nat) (h : usableLoc env I = some p) :
    targetWritesFrom env nm (I :: rest) =
      ((env.bbTargets.filter fun t => t.1 == p.1 && t.2 == p.2).map
          fun _ => if nm.isEmpty then locName p else nm) ++
        targetWritesFrom env (if nm.isEmpty then locName p else nm) rest := by
  simp only [targetWritesFrom, List.filterMap_cons, h, bbNameFrom_cons_some env nm I rest p h,
    List.flatMap_cons, bbNameFrom_of_ne env _ rest (nameStep_ne_nil nm p)]

theorem callWritesFrom_cons_none (env : Env) (nm : Str) (I : Instruction)
    (rest : List Instruction) (h : usableLoc env I = none) :
    callWritesFrom env nm (I :: rest) = callWritesFrom env nm rest := by
  simp [callWritesFrom, callWriteOf, h, bbNameFrom_cons_none env nm I rest h]

theorem callWritesFrom_cons_some (env : Env) (nm : Str) (I : Instruction)
    (rest : List Instruction) (p : Str × Nat) (h : usableLoc env I = some p) :
    callWritesFrom env nm (I :: rest) =
      callWriteOf env (if nm.isEmpty then locName p else nm) I ++
        callWritesFrom env (if nm.isEmpty then locName p else nm) rest := by
  simp only [callWritesFrom, bbNameFrom_cons_some env nm I rest p h,
    List.flatMap_cons, bbNameFrom_of_ne env _ rest (nameStep_ne_nil nm p)]

theorem instsHit_cons_none (env : Env) (I : Instruction) (rest : List Instruction)
    (h : usableLoc env I = none) : instsHit env (I :: rest) = instsHit env rest := by
  simp [instsHit, h]

theorem instsHit_cons_some (env : Env) (I : Instruction) (rest : List Instruction)
    (p : Str × Nat) (h : usableLoc env I = some p) :
    instsHit env (I :: rest) = (isTargetLoc env p || instsHit env rest) := by
  simp [instsHit, h]

theorem foldl_instStep (env : Env) (insts : List Instruction) (s : BBState) :
    insts.foldl (instStep env) s =
      ⟨bbNameFrom env s.bb_name insts, s.isTarget || instsHit env insts,
        s.hasTarget || instsHit env insts,
        s.out.apply ⟨targetWritesFrom env s.bb_name insts, [],
          callWritesFrom env s.bb_name insts, [], [], []⟩⟩ := by
  induction insts generalizing s with
  | nil =>
    have : bbNameFrom env s.bb_name [] = s.bb_name := by
      unfold bbNameFrom firstUsable
      split
      · rename_i h; simp at h; simp [h]
      · rfl
    simp [this, instsHit, targetWritesFrom, callWritesFrom, Output.apply_nil]
  | cons I rest ih =>
    rw [List.foldl_cons]
    cases h : usableLoc env I with
    | none =>
      rw [instStep_skip env s I h, ih, bbNameFrom_cons_none env _ I rest h,
        targetWritesFrom_cons_none env _ I rest h, callWritesFrom_cons_none env _ I rest h,
        instsHit_cons_none env I rest h]
    | some p =>
      rw [instStep_usable env s I p h, ih, bbNameFrom_cons_some env _ I rest p h,
        targetWritesFrom_cons_some env _ I rest p h, callWritesFrom_cons_some env _ I rest p h,
        instsHit_cons_some env I rest p h, Output.apply_apply,
        bbNameFrom_of_ne env _ rest (nameStep_ne_nil s.bb_name p)]
      simp [Bool.or_assoc]

theorem blockStep_eq (env : Env) (s : FState) (BB : BasicBlock) :
    blockStep env s BB =
      ⟨s.hasTarget || instsHit env BB.insts, s.hasBB || (blockId env BB).isSome,
        s.out.apply ⟨targetWritesFrom env [] BB.insts, nameWriteOf env BB,
          callWritesFrom env [] BB.insts, [], [], []⟩⟩ := by
  unfold blockStep
  rw [foldl_instStep]
  simp only
  unfold nameWriteOf blockId
  cases h : firstUsable env BB.insts with
  | none =>
    simp [bbNameFrom, h]
  | some p =>
    have hne : (locName p).isEmpty = false := by simpa using locName_ne_nil p
    simp [bbNameFrom, h, hne, Output.apply, Chan.writeAll]

theorem foldl_blockStep (env : Env) (blocks : List BasicBlock) (s : FState) :
    blocks.foldl (blockStep env) s =
      ⟨s.hasTarget || blocks.any (fun BB => instsHit env BB.insts),
        s.hasBB || blocks.any (fun BB => (blockId env BB).isSome),
        s.out.apply (blocksWrites env blocks)⟩ := by
  induction blocks generalizing s with
  | nil => simp [blocksWrites, Output.apply_nil]
  | cons BB rest ih =>
    rw [List.foldl_cons, blockStep_eq, ih, Output.apply_apply]
    simp [blocksWrites, Bool.or_assoc]

theorem funcStep_eq (env : Env) (out : Output) (F : Function) :
    funcStep env out F = out.apply (funcWrites env F) := by
  unfold funcStep funcWrites
  by_cases hb : isBlacklisted F.data = true
  · simp [hb, Output.apply_nil]
  · simp only [hb, if_false]
    rw [foldl_blockStep]
    simp only [Bool.false_or]
    have e1 : (F.blocks.any fun BB => (blockId env BB).isSome) = funcHasBB env F := rfl
    have e2 : (F.blocks.any fun BB => instsHit env BB.insts) = funcHasTarget env F := rfl
    rw [e1, e2]
    cases funcHasBB env F <;> cases funcHasTarget env F <;>
      cases env.cfgCreate (cfgFileNameOf env (getFuncLocName env.real_path F.data env.projRootDir)) <;>
      simp [Output.apply, Chan.writeAll, blocksWrites]

theorem moduleWrites_cons (env : Env) (F : Function) (M : List Function) :
    moduleWrites env (F :: M) =
      ⟨(funcWrites env F).bbtargets_new ++ (moduleWrites env M).bbtargets_new,
        (funcWrites env F).bbnames ++ (moduleWrites env M).bbnames,
        (funcWrites env F).bbcalls ++ (moduleWrites env M).bbcalls,
        (funcWrites env F).fnames ++ (moduleWrites env M).fnames,
        (funcWrites env F).ftargets ++ (moduleWrites env M).ftargets,
        (funcWrites env F).cfgs ++ (moduleWrites env M).cfgs⟩ := by
  simp [moduleWrites]

theorem foldl_funcStep (env : Env) (M : List Function) (out : Output) :
    M.foldl (funcStep env) out = out.apply (moduleWrites env M) := by
  induction M generalizing out with
  | nil => simp [moduleWrites, Output.apply_nil]
  | cons F rest ih =>
    rw [List.foldl_cons, funcStep_eq, ih, Output.apply_apply, moduleWrites_cons]

theorem firstPass_eq (env : Env) (M : List Function) :
    firstPass env M = Output.init.apply (moduleWrites env M) :=
  foldl_funcStep env M Output.init

theorem tracks_init_writeAll (W : List Str) : (Chan.writeAll ⟨[], []⟩ W).Tracks W := by
  simpa using Chan.tracks_writeAll W ⟨[], []⟩ [] Chan.tracks_init

theorem firstPass_tracks (env : Env) (M : List Function) :
    (firstPass env M).bbtargets_new.Tracks (moduleWrites env M).bbtargets_new ∧
    (firstPass env M).bbnames.Tracks (moduleWrites env M).bbnames ∧
    (firstPass env M).bbcalls.Tracks (moduleWrites env M).bbcalls ∧
    (firstPass env M).fnames.Tracks (moduleWrites env M).fnames ∧
    (firstPass env M).ftargets.Tracks (moduleWrites env M).ftargets ∧
    (firstPass env M).cfgs = (moduleWrites env M).cfgs := by
  rw [firstPass_eq]
  exact ⟨tracks_init_writeAll _, tracks_init_writeAll _, tracks_init_writeAll _,
    tracks_init_writeAll _, tracks_init_writeAll _, by simp [Output.apply, Output.init]⟩

/-! ## Which records are offered -/

theorem isTargetLoc_iff (env : Env) (p : Str × Nat) :
    isTargetLoc env p = true ↔ p ∈ env.bbTargets := by
  unfold isTargetLoc
  rw [List.any_eq_true]
  constructor
  · rintro ⟨t, ht, h⟩
    simp only [Bool.and_eq_true, beq_iff_eq] at h
    have : t = p := Prod.ext h.1 h.2
    exact this ▸ ht
  · intro h
    exact ⟨p, h, by simp⟩

theorem blockId_of_usable (env : Env) (BB : BasicBlock) (I : Instruction) (p : Str × Nat)
    (hI : I ∈ BB.insts) (hu : usableLoc env I = some p) :
    ∃ id, blockId env BB = some id ∧ bbNameFrom env [] BB.insts = id := by
  unfold blockId bbNameFrom
  cases h : firstUsable env BB.insts with
  | none =>
    unfold firstUsable at h
    rw [List.head?_eq_none_iff] at h
    have : p ∈ BB.insts.filterMap (usableLoc env) := List.mem_filterMap.2 ⟨I, hI, hu⟩
    rw [h] at this
    simp at this
  | some q => exact ⟨locName q, rfl, by simp⟩

theorem mem_targetWritesFrom (env : Env) (BB : BasicBlock) (r : Str) :
    r ∈ targetWritesFrom env [] BB.insts ↔
      blockId env BB = some r ∧
        ∃ I ∈ BB.insts, ∃ p, usableLoc env I = some p ∧ p ∈ env.bbTargets := by
  unfold targetWritesFrom
  simp only [List.mem_flatMap, List.mem_filterMap, List.mem_map, List.mem_filter]
  constructor
  · rintro ⟨p, ⟨I, hI, hu⟩, t, ⟨ht, hm⟩, rfl⟩
    obtain ⟨id, h1, h2⟩ := blockId_of_usable env BB I p hI hu
    refine ⟨by rw [h1, h2], I, hI, p, hu, ?_⟩
    exact (isTargetLoc_iff env p).1 (List.any_eq_true.2 ⟨t, ht, hm⟩)
  · rintro ⟨hid, I, hI, p, hu, hp⟩
    obtain ⟨id, h1, h2⟩ := blockId_of_usable env BB I p hI hu
    refine ⟨p, ⟨I, hI, hu⟩, p, ⟨hp, by simp⟩, ?_⟩
    rw [h2]
    rw [h1] at hid
    exact Option.some.inj hid

theorem mem_callWritesFrom (env : Env) (BB : BasicBlock) (r : Str) :
    r ∈ callWritesFrom env [] BB.insts ↔
      ∃ id, blockId env BB = some id ∧
        ∃ I ∈ BB.insts, ∃ p, usableLoc env I = some p ∧
          ∃ c, I.call = some (some c) ∧ isBlacklisted c = false ∧
            r = id ++ ",".toList ++ getFuncLocName env.real_path c env.projRootDir := by
  unfold callWritesFrom
  simp only [List.mem_flatMap]
  constructor
  · rintro ⟨I, hI, hr⟩
    unfold callWriteOf at hr
    split at hr
    · rename_i p c hu hc
      obtain ⟨id, h1, h2⟩ := blockId_of_usable env BB I p hI hu
      by_cases hb : isBlacklisted c = true
      · simp [hb] at hr
      · have hb2 : isBlacklisted c = false := by simpa using hb
        simp only [hb2, Bool.not_false, if_true, List.mem_singleton] at hr
        exact ⟨id, h1, I, hI, p, hu, c, hc, hb2, by rw [hr, h2]⟩
    · simp at hr
  · rintro ⟨id, hid, I, hI, p, hu, c, hc, hb, rfl⟩
    obtain ⟨id2, h1, h2⟩ := blockId_of_usable env BB I p hI hu
    refine ⟨I, hI, ?_⟩
    have : id2 = id := by
      rw [h1] at hid
      exact Option.some.inj hid
    simp [callWriteOf, hu, hc, hb, h2, this]

theorem mem_moduleWrites_targets (env : Env) (M : List Function) (r : Str) :
    r ∈ (moduleWrites env M).bbtargets_new ↔
      ∃ F ∈ M, isBlacklisted F.data = false ∧ ∃ BB ∈ F.blocks, blockId env BB = some r ∧
        ∃ I ∈ BB.insts, ∃ p, usableLoc env I = some p ∧ p ∈ env.bbTargets := by
  simp only [moduleWrites, List.mem_flatMap]
  constructor
  · rintro ⟨F, hF, hr⟩
    unfold funcWrites at hr
    by_cases hb : isBlacklisted F.data = true
    · simp [hb] at hr
    · have hb2 : isBlacklisted F.data = false := by simpa using hb
      simp only [hb2, Bool.false_eq_true, if_false, blocksWrites, List.mem_flatMap] at hr
      obtain ⟨BB, hBB, h⟩ := hr
      exact ⟨F, hF, hb2, BB, hBB, (mem_targetWritesFrom env BB r).1 h⟩
  · rintro ⟨F, hF, hb, BB, hBB, h⟩
    refine ⟨F, hF, ?_⟩
    unfold funcWrites
    simp only [hb, Bool.false_eq_true, if_false, blocksWrites, List.mem_flatMap]
    exact ⟨BB, hBB, (mem_targetWritesFrom env BB r).2 h⟩

theorem mem_moduleWrites_calls (env : Env) (M : List Function) (r : Str) :
    r ∈ (moduleWrites env M).bbcalls ↔
      ∃ F ∈ M, isBlacklisted F.data = false ∧ ∃ BB ∈ F.blocks,
        ∃ id, blockId env BB = some id ∧
        ∃ I ∈ BB.insts, ∃ p, usableLoc env I = some p ∧
          ∃ c, I.call = some (some c) ∧ isBlacklisted c = false ∧
            r = id ++ ",".toList ++ getFuncLocName env.real_path c env.projRootDir := by
  simp only [moduleWrites, List.mem_flatMap]
  constructor
  · rintro ⟨F, hF, hr⟩
    unfold funcWrites at hr
    by_cases hb : isBlacklisted F.data = true
    · simp [hb] at hr
    · have hb2 : isBlacklisted F.data = false := by simpa using hb
      simp only [hb2, Bool.false_eq_true, if_false, blocksWrites, List.mem_flatMap] at hr
      obtain ⟨BB, hBB, h⟩ := hr
      exact ⟨F, hF, hb2, BB, hBB, (mem_callWritesFrom env BB r).1 h⟩
  · rintro ⟨F, hF, hb, BB, hBB, h⟩
    refine ⟨F, hF, ?_⟩
    unfold funcWrites
    simp only [hb, Bool.false_eq_true, if_false, blocksWrites, List.mem_flatMap]
    exact ⟨BB, hBB, (mem_callWritesFrom env BB r).2 h⟩

theorem count_eq_one_of_nodup (l : List Str) (r : Str) (hn : l.Nodup) (hr : r ∈ l) :
    l.count r = 1 := by
  induction l with
  | nil => simp at hr
  | cons a l ih =>
    rw [List.nodup_cons] at hn
    rw [List.count_cons]
    by_cases ha : a = r
    · subst ha
      have : List.count a l = 0 := List.count_eq_zero.2 hn.1
      simp [this]
    · have hr2 : r ∈ l := by
        rcases List.mem_cons.1 hr with h | h
        · exact absurd h.symm ha
        · exact h
      simp [ih hn.2 hr2, ha]

theorem count_eq_one_of_tracks (c : Chan) (W : List Str) (r : Str) (h : c.Tracks W)
    (hr : r ∈ W) : c.lines.count r = 1 :=
  count_eq_one_of_nodup _ _ h.2.1 ((h.2.2.1 r).2 hr)

/-! ## Line de-duplication (C1 to C3) -/

theorem pairwise_of_nodup_trims (l : List Str)
    (h : ((l.filter fun x => !(isBlank x)).map trimStr).Nodup) :
    l.Pairwise fun a b => ¬ (isBlank a = false ∧ isBlank b = false ∧ trimStr a = trimStr b) := by
  induction l with
  | nil => exact List.Pairwise.nil
  | cons a l ih =>
    rw [List.pairwise_cons]
    by_cases ha : isBlank a = true
    · have h2 : ((l.filter fun x => !(isBlank x)).map trimStr).Nodup := by
        simpa [List.filter_cons, ha] using h
      refine ⟨?_, ih h2⟩
      intro b _ hb
      rw [ha] at hb
      exact absurd hb.1 (by simp)
    · have ha2 : isBlank a = false := by simpa using ha
      rw [List.filter_cons] at h
      simp only [ha2, Bool.not_false, if_true, List.map_cons, List.nodup_cons] at h
      refine ⟨?_, ih h.2⟩
      rintro b hb ⟨_, hb2, e⟩
      apply h.1
      rw [e]
      exact List.mem_map.2 ⟨b, List.mem_filter.2 ⟨hb, by simp [hb2]⟩, rfl⟩

/-- C1. Line-dedup law: in the output of `removeDupLines` no two lines are both
non-blank and equal after trimming. -/
theorem removeDupLines_no_equal_nonblank (lines : List Str) :
    (removeDupLines lines).Pairwise fun a b =>
      ¬ (isBlank a = false ∧ isBlank b = false ∧ trimStr a = trimStr b) := by
  apply pairwise_of_nodup_trims
  rw [kept_eq_firstOccurrences]
  exact nodup_firstOccurrences lines

/-- C2, as stated, fails: a line of two spaces is blank, and the blank lines of
the output are not the blank lines of the input, the output line being empty. -/
theorem removeDupLines_blank_not_verbatim :
    (removeDupLines ["  ".toList]).filter isBlank ≠ ["  ".toList].filter isBlank ∧
      removeDupLines ["  ".toList] = [[]] := by
  decide

/-- C2, amended. The blank lines of the output of `removeDupLines` are the
blank lines of the input, in the same number and order, each replaced by the
empty line. -/
theorem removeDupLines_blank_lines_emptied (lines : List Str) :
    (removeDupLines lines).filter isBlank = (lines.filter isBlank).map fun _ => [] := by
  rw [blank_eq_replicate, List.map_const']

/-- C3. The non-blank lines of the output of `removeDupLines` are, in input
order and with their original text, the non-blank input lines whose trimmed
form is not the trimmed form of an earlier input line; every trimmed content of
the input is a trimmed content of the output. -/
theorem removeDupLines_keeps_first_occurrences (lines : List Str) :
    (removeDupLines lines).filter (fun l => !(isBlank l)) = firstOccurrences lines ∧
      lines.map trimStr ⊆ (removeDupLines lines).map trimStr :=
  ⟨kept_eq_firstOccurrences lines, trims_preserved lines⟩

/-! ## The five text artifacts (C4 to C9) -/

/-- C4. The five text artifacts are obtained by offering the records of
`moduleWrites`, in traversal order, to the guarded streams; each artifact has
no two equal records, holds exactly the records offered to it, and lists them
in the order in which they were first offered. -/
theorem firstPass_artifacts_first_seen_order (env : Env) (M : List Function) :
    firstPass env M = Output.init.apply (moduleWrites env M) ∧
    FirstSeenOrder (firstPass env M).fnames.lines (moduleWrites env M).fnames ∧
    FirstSeenOrder (firstPass env M).ftargets.lines (moduleWrites env M).ftargets ∧
    FirstSeenOrder (firstPass env M).bbnames.lines (moduleWrites env M).bbnames ∧
    FirstSeenOrder (firstPass env M).bbtargets_new.lines (moduleWrites env M).bbtargets_new ∧
    FirstSeenOrder (firstPass env M).bbcalls.lines (moduleWrites env M).bbcalls := by
  obtain ⟨h1, h2, h3, h4, h5, _⟩ := firstPass_tracks env M
  exact ⟨firstPass_eq env M, h4.2, h5.2, h2.2, h1.2, h3.2⟩

/-- C5. A block of a non-blacklisted function with an instruction whose usable
location is a target entry has an identifier, and this identifier occurs
exactly once among the new target blocks. -/
theorem newTargetBlocks_exactly_once (env : Env) (M : List Function) (F : Function)
    (BB : BasicBlock) (I : Instruction) (p : Str × Nat)
    (hF : F ∈ M) (hbl : isBlacklisted F.data = false) (hBB : BB ∈ F.blocks)
    (hI : I ∈ BB.insts) (hu : usableLoc env I = some p) (ht : p ∈ env.bbTargets) :
    ∃ id, blockId env BB = some id ∧ (firstPass env M).bbtargets_new.lines.count id = 1 := by
  obtain ⟨id, hid, _⟩ := blockId_of_usable env BB I p hI hu
  refine ⟨id, hid, ?_⟩
  apply count_eq_one_of_tracks _ _ _ (firstPass_tracks env M).1
  exact (mem_moduleWrites_targets env M id).2 ⟨F, hF, hbl, BB, hBB, hid, I, hI, p, hu, ht⟩

/-- C5 at the module `exM`: the block starts at line 10, its second instruction
is at the target line 12, and `a.c:10` occurs once. -/
theorem newTargetBlocks_exactly_once_witness :
    (exF ∈ exM ∧ isBlacklisted exF.data = false ∧ exBB ∈ exF.blocks ∧ exI2 ∈ exBB.insts ∧
      usableLoc exEnv exI2 = some ("a.c".toList, 12) ∧
      ("a.c".toList, 12) ∈ exEnv.bbTargets ∧ blockId exEnv exBB = some "a.c:10".toList) ∧
    ∃ id, blockId exEnv exBB = some id ∧
      (firstPass exEnv exM).bbtargets_new.lines.count id = 1 :=
  ⟨⟨List.mem_singleton.2 rfl, by decide, List.mem_singleton.2 rfl, by simp [exBB],
      by decide, by decide, by decide⟩,
    newTargetBlocks_exactly_once exEnv exM exF exBB exI2 ("a.c".toList, 12)
      (List.mem_singleton.2 rfl) (by decide) (List.mem_singleton.2 rfl)
      (by simp [exBB]) (by decide) (by decide)⟩

/-- C6, as stated, fails: in `exM` the record `a.c:10` is written to the new
target blocks although the only target entry is `a.c:12`. -/
theorem newTargetBlocks_record_not_target_entry :
    (firstPass exEnv exM).bbtargets_new.lines = ["a.c:10".toList] ∧
    exEnv.bbTargets = [("a.c".toList, 12)] ∧
    ¬ ∀ r ∈ (firstPass exEnv exM).bbtargets_new.lines,
        ∃ t ∈ exEnv.bbTargets, r = locName t := by
  refine ⟨by decide, rfl, by decide⟩

/-- C6, amended. Every record of the new target blocks is the identifier of a
block of a non-blacklisted function that has an instruction whose usable
location is a target entry. -/
theorem newTargetBlocks_sound (env : Env) (M : List Function) (r : Str)
    (hr : r ∈ (firstPass env M).bbtargets_new.lines) :
    ∃ F ∈ M, isBlacklisted F.data = false ∧ ∃ BB ∈ F.blocks, blockId env BB = some r ∧
      ∃ I ∈ BB.insts, ∃ p, usableLoc env I = some p ∧ p ∈ env.bbTargets :=
  (mem_moduleWrites_targets env M r).1 (((firstPass_tracks env M).1.2.2.1 r).1 hr)

/-- C6, amended, at the module `exM` and the record `a.c:10`. -/
theorem newTargetBlocks_sound_witness :
    "a.c:10".toList ∈ (firstPass exEnv exM).bbtargets_new.lines ∧
    ∃ F ∈ exM, isBlacklisted F.data = false ∧ ∃ BB ∈ F.blocks,
      blockId exEnv BB = some "a.c:10".toList ∧
      ∃ I ∈ BB.insts, ∃ p, usableLoc exEnv I = some p ∧ p ∈ exEnv.bbTargets :=
  ⟨by decide, newTargetBlocks_sound exEnv exM "a.c:10".toList (by decide)⟩

/-- C7, as stated, fails: in `exMcall` the block has the identifier `a.c:10`
and holds a direct call of the non-blacklisted `g`, but the call has no debug
location and no call edge is written. -/
theorem callEdges_missing_without_location :
    exFcall ∈ exMcall ∧ isBlacklisted exFcall.data = false ∧ exBBcall ∈ exFcall.blocks ∧
    blockId exEnv exBBcall = some "a.c:10".toList ∧
    exI3 ∈ exBBcall.insts ∧ exI3.call = some (some exCallee) ∧
    isBlacklisted exCallee = false ∧
    (firstPass exEnv exMcall).bbcalls.lines = [] ∧
    (firstPass exEnv exMcall).bbcalls.lines.count
      ("a.c:10".toList ++ ",".toList ++
        getFuncLocName exEnv.real_path exCallee exEnv.projRootDir) ≠ 1 := by
  refine ⟨List.mem_singleton.2 rfl, by decide, List.mem_singleton.2 rfl, by decide,
    by simp [exBBcall], rfl, by decide, by decide, by decide⟩

/-- C7, amended. For a call instruction with a usable location, in a block of a
non-blacklisted function, whose callee is resolved and not blacklisted, the
block has an identifier and the record `<blockId>,<calleeFunctionId>` occurs
exactly once among the block call edges. -/
theorem callEdges_complete_of_usable (env : Env) (M : List Function) (F : Function)
    (BB : BasicBlock) (I : Instruction) (p : Str × Nat) (c : FunctionData)
    (hF : F ∈ M) (hbl : isBlacklisted F.data = false) (hBB : BB ∈ F.blocks)
    (hI : I ∈ BB.insts) (hu : usableLoc env I = some p)
    (hc : I.call = some (some c)) (hcb : isBlacklisted c = false) :
    ∃ id, blockId env BB = some id ∧
      (firstPass env M).bbcalls.lines.count
        (id ++ ",".toList ++ getFuncLocName env.real_path c env.projRootDir) = 1 := by
  obtain ⟨id, hid, _⟩ := blockId_of_usable env BB I p hI hu
  refine ⟨id, hid, ?_⟩
  apply count_eq_one_of_tracks _ _ _ (firstPass_tracks env M).2.2.1
  exact (mem_moduleWrites_calls env M _).2
    ⟨F, hF, hbl, BB, hBB, id, hid, I, hI, p, hu, c, hc, hcb, rfl⟩

/-- C7, amended, at the module `exM` and the call of `g` at `a.c:13`. -/
theorem callEdges_complete_of_usable_witness :
    (exF ∈ exM ∧ isBlacklisted exF.data = false ∧ exBB ∈ exF.blocks ∧ exI4 ∈ exBB.insts ∧
      usableLoc exEnv exI4 = some ("a.c".toList, 13) ∧
      exI4.call = some (some exCallee) ∧ isBlacklisted exCallee = false) ∧
    ∃ id, blockId exEnv exBB = some id ∧
      (firstPass exEnv exM).bbcalls.lines.count
        (id ++ ",".toList ++ getFuncLocName exEnv.real_path exCallee exEnv.projRootDir) = 1 :=
  ⟨⟨List.mem_singleton.2 rfl, by decide, List.mem_singleton.2 rfl, by simp [exBB],
      by decide, rfl, by decide⟩,
    callEdges_complete_of_usable exEnv exM exF exBB exI4 ("a.c".toList, 13) exCallee
      (List.mem_singleton.2 rfl) (by decide) (List.mem_singleton.2 rfl)
      (by simp [exBB]) (by decide) rfl (by decide)⟩

theorem instStep_bbcalls_unchanged (env : Env) (s : BBState) (I : Instruction)
    (h : ∀ c, I.call = some (some c) → isBlacklisted c = true) :
    (instStep env s I).out.bbcalls = s.out.bbcalls := by
  cases hu : usableLoc env I with
  | none => rw [instStep_skip env s I hu]
  | some p =>
    rw [instStep_usable env s I p hu]
    have : callWriteOf env (if s.bb_name.isEmpty then locName p else s.bb_name) I = [] := by
      unfold callWriteOf
      split
      · rename_i c _ hc
        simp [h c hc]
      · rfl
    simp only [Output.apply]
    rw [this]
    rfl

/-- C8. Every record of the block call edges is `<blockId>,<getFuncLocName
(callee)>` for a call instruction, in a block with identifier `blockId` of a
non-blacklisted function, whose callee is resolved and not blacklisted; an
instruction that is an indirect call, or whose callee is blacklisted, leaves
the block call edges as they are. -/
theorem callEdges_sound (env : Env) (M : List Function) :
    (∀ r ∈ (firstPass env M).bbcalls.lines,
      ∃ F ∈ M, isBlacklisted F.data = false ∧ ∃ BB ∈ F.blocks,
        ∃ id, blockId env BB = some id ∧ ∃ I ∈ BB.insts,
          ∃ c, I.call = some (some c) ∧ isBlacklisted c = false ∧
            r = id ++ ",".toList ++ getFuncLocName env.real_path c env.projRootDir) ∧
    (∀ (s : BBState) (I : Instruction),
      (I.call = some none ∨ ∃ c, I.call = some (some c) ∧ isBlacklisted c = true) →
        (instStep env s I).out.bbcalls = s.out.bbcalls) := by
  constructor
  · intro r hr
    obtain ⟨F, hF, hbl, BB, hBB, id, hid, I, hI, p, _, c, hc, hcb, e⟩ :=
      (mem_moduleWrites_calls env M r).1 (((firstPass_tracks env M).2.2.1.2.2.1 r).1 hr)
    exact ⟨F, hF, hbl, BB, hBB, id, hid, I, hI, c, hc, hcb, e⟩
  · intro s I h
    apply instStep_bbcalls_unchanged
    intro c hc
    rcases h with h | ⟨c2, h, hb⟩
    · rw [h] at hc; simp at hc
    · rw [h] at hc
      have : c2 = c := by simpa using hc
      exact this ▸ hb

/-- C8 at the module `exM`: its one call edge comes from the call of `g`. -/
theorem callEdges_sound_witness :
    (firstPass exEnv exM).bbcalls.lines = ["a.c:10,0xFF;g".toList] ∧
    ∃ F ∈ exM, isBlacklisted F.data = false ∧ ∃ BB ∈ F.blocks,
      ∃ id, blockId exEnv BB = some id ∧ ∃ I ∈ BB.insts,
        ∃ c, I.call = some (some c) ∧ isBlacklisted c = false ∧
          "a.c:10,0xFF;g".toList =
            id ++ ",".toList ++ getFuncLocName exEnv.real_path c exEnv.projRootDir :=
  ⟨by decide, (callEdges_sound exEnv exM).1 "a.c:10,0xFF;g".toList (by decide)⟩

theorem foldl_funcStep_filter (env : Env) (M : List Function) (out : Output) :
    M.foldl (funcStep env) out =
      (M.filter fun F => !(isBlacklisted F.data)).foldl (funcStep env) out := by
  induction M generalizing out with
  | nil => rfl
  | cons F rest ih =>
    by_cases hb : isBlacklisted F.data = true
    · have : funcStep env out F = out := by simp [funcStep, hb]
      simp [List.filter_cons, hb, this, ih]
    · have hb2 : isBlacklisted F.data = false := by simpa using hb
      simp [List.filter_cons, hb2, ih]

/-- C9. The five text artifacts and the CFG files of a module are those of the
module without its blacklisted functions; when every function is blacklisted
the five artifacts are empty and no CFG file is written. -/
theorem blacklisted_contribute_nothing (env : Env) (M : List Function) :
    firstPass env M = firstPass env (M.filter fun F => !(isBlacklisted F.data)) ∧
    ((∀ F ∈ M, isBlacklisted F.data = true) → firstPass env M = Output.init) := by
  refine ⟨foldl_funcStep_filter env M Output.init, ?_⟩
  intro h
  unfold firstPass
  rw [foldl_funcStep_filter]
  have : (M.filter fun F => !(isBlacklisted F.data)) = [] := by
    rw [List.filter_eq_nil_iff]
    intro F hF
    simp [h F hF]
  rw [this]
  rfl

/-- C9 at a module in which the blacklisted `exFmalloc` has a target block and
a call: it changes nothing next to `exF` and writes nothing when alone. -/
theorem blacklisted_contribute_nothing_witness :
    firstPass exEnv [exFmalloc, exF] = firstPass exEnv [exF] ∧
      firstPass exEnv [exFmalloc] = Output.init :=
  ⟨(blacklisted_contribute_nothing exEnv [exFmalloc, exF]).1,
    (blacklisted_contribute_nothing exEnv [exFmalloc]).2
      (fun F hF => by rw [List.mem_singleton.1 hF]; decide)⟩

/-! ## The blacklist (C10) -/

theorem startswith_iff (s p : Str) : startswith s p = true ↔ p <+: s := by
  unfold startswith
  rw [Bool.and_eq_true, decide_eq_true_iff, beq_iff_eq, List.prefix_iff_eq_take]
  constructor
  · rintro ⟨_, h⟩; exact h.symm
  · intro h
    refine ⟨?_, h.symm⟩
    have := congrArg List.length h
    rw [List.length_take] at this
    omega

/-- C10. The function `isBlacklisted` returns true exactly for the names that
begin, character for character, with one of the eight listed strings; `freeze`
and `malloc_usable_size` are blacklisted and `Malloc` is not. -/
theorem isBlacklisted_iff_starts (F : FunctionData) (guid : Nat)
    (body : List (List (Option DILocation))) :
    (isBlacklisted F = true ↔
      ∃ p ∈ ["asan.".toList, "llvm.".toList, "sancov.".toList, "__ubsan_handle_".toList,
        "free".toList, "malloc".toList, "calloc".toList, "realloc".toList], p <+: F.name) ∧
    isBlacklisted ⟨"freeze".toList, guid, body⟩ = true ∧
    isBlacklisted ⟨"malloc_usable_size".toList, guid, body⟩ = true ∧
    isBlacklisted ⟨"Malloc".toList, guid, body⟩ = false := by
  refine ⟨?_, rfl, rfl, rfl⟩
  unfold isBlacklisted
  rw [List.any_eq_true]
  constructor
  · rintro ⟨p, hp, h⟩
    exact ⟨p, hp, (startswith_iff _ _).1 h⟩
  · rintro ⟨p, hp, h⟩
    exact ⟨p, hp, (startswith_iff _ _).2 h⟩

/-! ## The function `trimStr` is a trim (C20) -/

theorem trimLeft_eq (s : Str) (fuel left : Nat) (h : s.length ≤ left + fuel) :
    trimLeft s fuel left = left + ((s.drop left).takeWhile isWhite).length := by
  induction fuel generalizing left with
  | zero =>
    have : s.drop left = [] := List.drop_eq_nil_of_le (by omega)
    simp [trimLeft, this]
  | succ fuel ih =>
    unfold trimLeft
    by_cases hl : left < s.length
    · have hd : s.drop left = s[left] :: s.drop (left + 1) := List.drop_eq_getElem_cons hl
      have hg : s.getD left ' ' = s[left] := by
        rw [List.getD_eq_getElem _ _ hl]
      simp only [hl, if_true, hg]
      by_cases hw : isWhite s[left] = true
      · have hw2 : whiteSpaces.contains s[left] = true := hw
        simp only [hw2, Bool.not_true, Bool.false_eq_true, if_false]
        rw [ih (left + 1) (by omega), hd, List.takeWhile_cons]
        simp only [hw, if_true, List.length_cons]
        omega
      · have hw2 : whiteSpaces.contains s[left] = false := by
          simpa [isWhite] using hw
        simp only [hw2, Bool.not_false, if_true]
        rw [hd, List.takeWhile_cons]
        simp [hw]
    · have : s.drop left = [] := List.drop_eq_nil_of_le (by omega)
      simp [hl, this]

theorem trimLeft_zero (s : Str) :
    trimLeft s s.length 0 = (s.takeWhile isWhite).length := by
  simpa using trimLeft_eq s s.length 0 (by omega)

theorem drop_takeWhile_length (s : Str) :
    s.drop (s.takeWhile isWhite).length = s.dropWhile isWhite := by
  have h := List.drop_left (s.takeWhile isWhite) (s.dropWhile isWhite)
  rwa [List.takeWhile_append_dropWhile] at h

theorem trimRight_spec (s : Str) (left right : Nat) (h : left ≤ right) :
    left ≤ trimRight s left right ∧ trimRight s left right ≤ right ∧
      (∀ j, trimRight s left right < j → j ≤ right → isWhite (s.getD j ' ') = true) ∧
      (left < trimRight s left right → isWhite (s.getD (trimRight s left right) ' ') = false) := by
  induction right with
  | zero =>
    have : left = 0 := by omega
    subst this
    refine ⟨le_refl _, le_refl _, ?_, ?_⟩
    · intro j hj hj2
      simp only [trimRight] at hj
      omega
    · intro hlt
      simp only [trimRight] at hlt
      omega
  | succ right ih =>
    unfold trimRight
    by_cases hgt : right + 1 > left
    · simp only [hgt, if_true]
      by_cases hw : isWhite (s.getD (right + 1) ' ') = true
      · have hw2 : whiteSpaces.contains (s.getD (right + 1) ' ') = true := hw
        simp only [hw2, Bool.not_true, Bool.false_eq_true, if_false]
        obtain ⟨h1, h2, h3, h4⟩ := ih (by omega)
        refine ⟨h1, by omega, ?_, h4⟩
        intro j hj hj2
        by_cases hj3 : j = right + 1
        · rw [hj3]; exact hw
        · exact h3 j hj (by omega)
      · have hw2 : whiteSpaces.contains (s.getD (right + 1) ' ') = false := by
          simpa [isWhite] using hw
        simp only [hw2, Bool.not_false, if_true]
        refine ⟨h, le_refl _, ?_, ?_⟩
        · intro j hj hj2; omega
        · intro _; simpa using hw
    · simp only [hgt, if_false]
      refine ⟨h, le_refl _, ?_, ?_⟩
      · intro j hj hj2; omega
      · intro hlt; exact hlt.elim

theorem rdropWhile_append_of_pos (p : Char → Bool) (a b : Str) (h : ∀ x ∈ b, p x = true) :
    (a ++ b).rdropWhile p = a.rdropWhile p := by
  induction b using List.reverseRecOn with
  | nil => simp
  | append_singleton b x ih =>
    rw [← List.append_assoc, List.rdropWhile_concat_pos _ _ _ (h x (by simp))]
    exact ih (fun y hy => h y (by simp [hy]))

theorem rdropWhile_eq_take (p : Char → Bool) (t : Str) (k : Nat) (hk : 0 < k)
    (hk2 : k ≤ t.length) (hlast : p (t.getD (k - 1) ' ') = false)
    (hrest : ∀ j, k ≤ j → j < t.length → p (t.getD j ' ') = true) :
    t.rdropWhile p = t.take k := by
  conv_lhs => rw [← List.take_append_drop k t]
  rw [rdropWhile_append_of_pos]
  · rw [List.rdropWhile_eq_self_iff]
    intro hne
    have hlen : (t.take k).length = k := by simp [hk2]
    rw [List.getLast_eq_getElem]
    have hb : (t.take k).length - 1 < (t.take k).length := by rw [hlen]; omega
    have : (t.take k)[(t.take k).length - 1] = t.getD (k - 1) ' ' := by
      rw [List.getElem_take, List.getD_eq_getElem _ _ (by omega)]
      simp [hlen]
    rw [this, hlast]
    simp
  · intro x hx
    obtain ⟨i, hi, rfl⟩ := List.mem_iff_getElem.1 hx
    rw [List.length_drop] at hi
    rw [List.getElem_drop]
    have := hrest (k + i) (by omega) (by omega)
    rwa [List.getD_eq_getElem _ _ (by omega)] at this

theorem trimStr_eq (s : Str) : trimStr s = (s.dropWhile isWhite).rdropWhile isWhite := by
  unfold trimStr
  simp only [trimLeft_zero]
  by_cases hall : (s.takeWhile isWhite).length ≥ s.length
  · simp only [hall, if_true]
    have : s.dropWhile isWhite = [] := by
      rw [← drop_takeWhile_length]
      exact List.drop_eq_nil_of_le hall
    simp [this]
  · simp only [hall, if_false]
    have hlt : (s.takeWhile isWhite).length < s.length := by omega
    obtain ⟨h1, h2, h3, h4⟩ :=
      trimRight_spec s (s.takeWhile isWhite).length (s.length - 1) (by omega)
    simp only [h1, if_true]
    rw [drop_takeWhile_length]
    have ht : s.dropWhile isWhite = s.drop (s.takeWhile isWhite).length :=
      (drop_takeWhile_length s).symm
    have hhead : isWhite (s.getD (s.takeWhile isWhite).length ' ') = false := by
      have hpos : 0 < (s.dropWhile isWhite).length := by
        rw [ht, List.length_drop]; omega
      have := List.dropWhile_get_zero_not isWhite s hpos
      rw [List.getD_eq_getElem _ _ hlt]
      have e : (s.dropWhile isWhite).get ⟨0, hpos⟩ = s[(s.takeWhile isWhite).length] := by
        simp only [List.get_eq_getElem]
        simp only [ht, List.getElem_drop]
        simp
      rw [e] at this
      simpa using this
    symm
    apply rdropWhile_eq_take
    · omega
    · rw [ht, List.length_drop]; omega
    · have e : (s.dropWhile isWhite).getD
          (trimRight s (s.takeWhile isWhite).length (s.length - 1) -
            (s.takeWhile isWhite).length + 1 - 1) ' ' =
          s.getD (trimRight s (s.takeWhile isWhite).length (s.length - 1)) ' ' := by
        rw [ht, List.getD_eq_getElem?_getD, List.getD_eq_getElem?_getD, List.getElem?_drop]
        congr 2
        omega
      rw [e]
      by_cases hc : (s.takeWhile isWhite).length <
          trimRight s (s.takeWhile isWhite).length (s.length - 1)
      · exact h4 hc
      · have : trimRight s (s.takeWhile isWhite).length (s.length - 1) =
            (s.takeWhile isWhite).length := by omega
        rw [this]; exact hhead
    · intro j hj hj2
      rw [ht, List.length_drop] at hj2
      have e : (s.dropWhile isWhite).getD j ' ' =
          s.getD ((s.takeWhile isWhite).length + j) ' ' := by
        rw [ht, List.getD_eq_getElem?_getD, List.getD_eq_getElem?_getD, List.getElem?_drop]
      rw [e]
      exact h3 _ (by omega) (by omega)

theorem rdropWhile_append_rtakeWhile (p : Char → Bool) (l : Str) :
    l.rdropWhile p ++ l.rtakeWhile p = l := by
  unfold List.rdropWhile List.rtakeWhile
  rw [← List.reverse_append, List.takeWhile_append_dropWhile, List.reverse_reverse]

theorem head_trim_not_white (s : Str)
    (h : (s.dropWhile isWhite).rdropWhile isWhite ≠ []) :
    isWhite (((s.dropWhile isWhite).rdropWhile isWhite).head h) = false := by
  have hpre : (s.dropWhile isWhite).rdropWhile isWhite <+: s.dropWhile isWhite :=
    List.rdropWhile_prefix isWhite _
  obtain ⟨t, ht⟩ := hpre
  have hD : s.dropWhile isWhite ≠ [] := by
    intro e
    rw [e] at h
    simp at h
  have e : ((s.dropWhile isWhite).rdropWhile isWhite).head h = (s.dropWhile isWhite).head hD := by
    have : (s.dropWhile isWhite).head hD =
        ((s.dropWhile isWhite).rdropWhile isWhite ++ t).head (by simp [h]) := by
      congr 1
      exact ht.symm
    rw [this, List.head_append_of_ne_nil]
  rw [e]
  exact List.head_dropWhile_not isWhite s hD

/-- C20. The function `trimStr` removes from a string the longest prefix and
then the longest suffix made of space, tab, newline and carriage return: the
result is that middle part of the string, it is empty exactly when every
character of the string is one of the four, otherwise it neither starts nor
ends with one of them, and trimming it again leaves it unchanged. -/
theorem trimStr_is_trim (s : Str) :
    (∀ c, isWhite c = true ↔ c = ' ' ∨ c = '\t' ∨ c = '\n' ∨ c = '\r') ∧
    trimStr s = (s.dropWhile isWhite).rdropWhile isWhite ∧
    s = s.takeWhile isWhite ++ trimStr s ++ (s.dropWhile isWhite).rtakeWhile isWhite ∧
    (trimStr s = [] ↔ ∀ c ∈ s, isWhite c = true) ∧
    (∀ h : trimStr s ≠ [],
      isWhite ((trimStr s).head h) = false ∧ isWhite ((trimStr s).getLast h) = false) ∧
    trimStr (trimStr s) = trimStr s := by
  have hhead : ∀ h : trimStr s ≠ [], isWhite ((trimStr s).head h) = false := by
    intro h
    have h2 : (s.dropWhile isWhite).rdropWhile isWhite ≠ [] := by
      rwa [← trimStr_eq]
    have := head_trim_not_white s h2
    simpa only [← trimStr_eq] using this
  refine ⟨?_, trimStr_eq s, ?_, ?_, ?_, ?_⟩
  · intro c
    simp [isWhite, whiteSpaces]
  · rw [trimStr_eq, List.append_assoc, rdropWhile_append_rtakeWhile,
      List.takeWhile_append_dropWhile]
  · rw [trimStr_eq, List.rdropWhile_eq_nil_iff]
    constructor
    · intro h
      have : s.dropWhile isWhite = [] := by
        by_contra hne
        have := List.head_dropWhile_not isWhite s hne
        rw [h _ (List.head_mem hne)] at this
        simp at this
      exact List.dropWhile_eq_nil_iff.1 this
    · intro h x hx
      exact h x ((List.dropWhile_suffix isWhite).subset hx)
  · intro h
    refine ⟨hhead h, ?_⟩
    have h2 : (s.dropWhile isWhite).rdropWhile isWhite ≠ [] := by
      rwa [← trimStr_eq]
    have := List.rdropWhile_last_not isWhite (s.dropWhile isWhite) h2
    simp only [← trimStr_eq] at this
    simpa using this
  · have h1 : (trimStr s).dropWhile isWhite = trimStr s := by
      rw [List.dropWhile_eq_self_iff]
      intro hl
      have hne : trimStr s ≠ [] := List.ne_nil_of_length_pos hl
      have := hhead hne
      rw [List.get_eq_getElem]
      have e : (trimStr s)[0] = (trimStr s).head hne := (List.head_eq_getElem _ hne).symm
      simp only [e, this]
      simp
    rw [trimStr_eq (trimStr s), h1]
    conv_lhs => rw [trimStr_eq s]
    rw [List.rdropWhile_idempotent, ← trimStr_eq]

theorem getDebugLoc_some (rp : Str → Option Str) (Loc : DILocation) (pp : Str) :
    getDebugLocWithColAndPath rp (some Loc) pp =
      (resolvedPath rp (effectiveLoc Loc).directory (effectiveLoc Loc).filename pp,
        (effectiveLoc Loc).line, (effectiveLoc Loc).column) := rfl

theorem resolvedPath_empty_name (rp : Str → Option Str) (d pp : Str) :
    resolvedPath rp d [] pp = [] := rfl

theorem resolvedPath_absolute (rp : Str → Option Str) (d f pp : Str)
    (h : f.head? = some '/') : resolvedPath rp d f pp = f := by
  cases f with
  | nil => simp at h
  | cons a l => simp [resolvedPath, h]

theorem resolvedPath_failed (rp : Str → Option Str) (d f pp : Str)
    (hne : f ≠ []) (hrel : f.head? ≠ some '/') (hrp : rp (joinedPath d f) = none) :
    resolvedPath rp d f pp = joinedPath d f := by
  have hne2 : f.isEmpty = false := by simpa using hne
  have hrel2 : (f.head? == some '/') = false := by simpa using hrel
  simp [resolvedPath, hne2, hrel2, hrp]

theorem stripped_eq (pp abs : Str) :
    (if (!(abs.drop pp.length).isEmpty && (abs.drop pp.length).head? == some '/') = true then
      (abs.drop pp.length).drop 1 else abs.drop pp.length) = stripRoot pp abs := by
  unfold stripRoot
  cases abs.drop pp.length with
  | nil => simp
  | cons a l =>
    by_cases ha : a = '/'
    · simp [ha]
    · simp [ha]

theorem resolvedPath_canonical (rp : Str → Option Str) (d f pp abs : Str)
    (hne : f ≠ []) (hrel : f.head? ≠ some '/') (hrp : rp (joinedPath d f) = some abs) :
    resolvedPath rp d f pp = if pp ≠ [] ∧ pp <+: abs then stripRoot pp abs else abs := by
  have hne2 : f.isEmpty = false := by simpa using hne
  have hrel2 : (f.head? == some '/') = false := by simpa using hrel
  unfold resolvedPath
  simp only [hne2, hrel2, hrp, Bool.not_false, if_true, Bool.false_eq_true, if_false]
  rw [stripped_eq]
  by_cases hpp : pp = []
  · subst hpp
    simp
  · have hpp2 : pp.isEmpty = false := by simpa using hpp
    by_cases hpre : pp <+: abs
    · have hlen : abs.length ≥ pp.length := hpre.length_le
      have hcmp : compareEq abs pp.length pp = true := by
        unfold compareEq
        rw [beq_iff_eq]
        exact (List.prefix_iff_eq_take.1 hpre).symm
      have hc : (pp ≠ [] ∧ pp <+: abs) := ⟨hpp, hpre⟩
      rw [if_pos hc]
      simp [hpp2, hlen, hcmp]
    · have hc : ¬ (pp ≠ [] ∧ pp <+: abs) := fun h => hpre h.2
      simp only [hc, if_false]
      by_cases hl : abs.length ≥ pp.length
      · have hcmp : compareEq abs pp.length pp = false := by
          by_contra hcc
          apply hpre
          rw [List.prefix_iff_eq_take]
          unfold compareEq at hcc
          simp only [Bool.not_eq_false, beq_iff_eq] at hcc
          exact hcc.symm
        simp [hcmp]
      · simp [hl]

theorem stripRoot_eq_nil_iff (pp abs : Str) (hpre : pp <+: abs) :
    stripRoot pp abs = [] ↔ abs = pp ∨ abs = pp ++ "/".toList := by
  obtain ⟨t, rfl⟩ := hpre
  unfold stripRoot
  rw [List.drop_left]
  cases t with
  | nil => simp
  | cons a l =>
    by_cases ha : a = '/'
    · subst ha
      simp
    · simp [ha]

/-! ## The Path Resolver and the Location Extractor (C15, C16, C19) -/

theorem joinedPath_ne_nil (d f : Str) (h : f ≠ []) : joinedPath d f ≠ [] := by
  unfold joinedPath
  split
  · exact h
  · simp

/-- C15, as stated, fails: for the file name `..` in `/root/src`, canonicalized
to the project root `/root`, the file path is empty although the file name is
not. -/
theorem filepath_empty_with_name :
    (getDebugLocWithColAndPath exRealPathRoot (some exLocUp) "/root".toList).1 = [] ∧
      (effectiveLoc exLocUp).filename = "..".toList ∧
      (effectiveLoc exLocUp).filename ≠ [] := by
  decide

/-- C15, amended. The file path is empty exactly when the file name is empty,
or the file name is relative and canonicalization succeeds with a path that is
empty or, for a non-empty project root, equal to the root or to the root
followed by one `/`. -/
theorem filepath_empty_iff (rp : Str → Option Str) (Loc : DILocation) (pp : Str) :
    (getDebugLocWithColAndPath rp (some Loc) pp).1 = [] ↔
      (effectiveLoc Loc).filename = [] ∨
      ((effectiveLoc Loc).filename.head? ≠ some '/' ∧
        ∃ abs, rp (joinedPath (effectiveLoc Loc).directory (effectiveLoc Loc).filename) = some abs ∧
          (abs = [] ∨ (pp ≠ [] ∧ (abs = pp ∨ abs = pp ++ "/".toList)))) := by
  rw [getDebugLoc_some]
  simp only
  generalize (effectiveLoc Loc).filename = f
  generalize (effectiveLoc Loc).directory = d
  by_cases hf : f = []
  · subst hf
    simp [resolvedPath_empty_name]
  · by_cases hrel : f.head? = some '/'
    · rw [resolvedPath_absolute rp d f pp hrel]
      simp [hf, hrel]
    · cases hrp : rp (joinedPath d f) with
      | none =>
        rw [resolvedPath_failed rp d f pp hf hrel hrp]
        simp [hf, joinedPath_ne_nil d f hf]
      | some abs =>
        rw [resolvedPath_canonical rp d f pp abs hf hrel hrp]
        have key : ((f = [] ∨ (f.head? ≠ some '/' ∧ ∃ abs', some abs = some abs' ∧
            (abs' = [] ∨ (pp ≠ [] ∧ (abs' = pp ∨ abs' = pp ++ "/".toList))))) ↔
            (abs = [] ∨ (pp ≠ [] ∧ (abs = pp ∨ abs = pp ++ "/".toList)))) := by
          constructor
          · rintro (h | ⟨_, abs', e, h⟩)
            · exact absurd h hf
            · rw [Option.some.inj e]; exact h
          · intro h
            exact Or.inr ⟨hrel, abs, rfl, h⟩
        rw [key]
        by_cases hc : pp ≠ [] ∧ pp <+: abs
        · rw [if_pos hc, stripRoot_eq_nil_iff pp abs hc.2]
          constructor
          · intro h; exact Or.inr ⟨hc.1, h⟩
          · rintro (h | ⟨_, h⟩)
            · exfalso
              rw [h] at hc
              exact hc.1 (List.prefix_nil.1 hc.2)
            · exact h
        · rw [if_neg hc]
          constructor
          · intro h; exact Or.inl h
          · rintro (h | ⟨h1, h2 | h2⟩)
            · exact h
            · exact absurd ⟨h1, h2 ▸ List.prefix_refl _⟩ hc
            · exact absurd ⟨h1, h2 ▸ List.prefix_append _ _⟩ hc

/-- C16, as stated, fails: the absolute file name `/root/src/foo.c` begins with
the project root `/root` and is returned unchanged, not as `src/foo.c`; and
when canonicalization fails for the file name `a.c` with an empty directory the
result is `a.c`, not `/a.c`. -/
theorem path_not_stripped_or_joined :
    ("/root".toList <+: "/root/src/foo.c".toList ∧
      (getDebugLocWithColAndPath exRealPathRoot (some exLocAbs) "/root".toList).1 =
        "/root/src/foo.c".toList ∧
      stripRoot "/root".toList "/root/src/foo.c".toList = "src/foo.c".toList) ∧
    ((getDebugLocWithColAndPath (fun _ => none) (some exLocNoDir) "/root".toList).1 =
        "a.c".toList ∧
      (effectiveLoc exLocNoDir).directory ++ "/".toList ++ (effectiveLoc exLocNoDir).filename =
        "/a.c".toList) := by
  refine ⟨⟨?_, by decide, by decide⟩, by decide, by decide⟩
  exact ⟨"/src/foo.c".toList, by decide⟩

/-- C16, amended. For a relative file name and a non-empty project root: when
canonicalization succeeds with a path that begins with the root, the file path
is that path without the root and without the `/` that follows it, if any; when
it succeeds with another path, the file path is that path; when it fails, the
file path is the path that was to be canonicalized, which is the file name
alone for an empty directory and directory, `/`, file name otherwise. -/
theorem path_root_stripping (rp : Str → Option Str) (Loc : DILocation) (pp : Str)
    (hne : (effectiveLoc Loc).filename ≠ [])
    (hrel : (effectiveLoc Loc).filename.head? ≠ some '/') (hpp : pp ≠ []) :
    (∀ abs, rp (joinedPath (effectiveLoc Loc).directory (effectiveLoc Loc).filename) = some abs →
      pp <+: abs → (getDebugLocWithColAndPath rp (some Loc) pp).1 = stripRoot pp abs) ∧
    (∀ abs, rp (joinedPath (effectiveLoc Loc).directory (effectiveLoc Loc).filename) = some abs →
      ¬ pp <+: abs → (getDebugLocWithColAndPath rp (some Loc) pp).1 = abs) ∧
    (rp (joinedPath (effectiveLoc Loc).directory (effectiveLoc Loc).filename) = none →
      (getDebugLocWithColAndPath rp (some Loc) pp).1 =
        joinedPath (effectiveLoc Loc).directory (effectiveLoc Loc).filename) ∧
    (∀ t, stripRoot pp (pp ++ "/".toList ++ t) = t) ∧
    (∀ t, t.head? ≠ some '/' → stripRoot pp (pp ++ t) = t) := by
  rw [getDebugLoc_some]
  simp only
  refine ⟨?_, ?_, ?_, ?_, ?_⟩
  · intro abs hrp hpre
    rw [resolvedPath_canonical rp _ _ pp abs hne hrel hrp, if_pos ⟨hpp, hpre⟩]
  · intro abs hrp hpre
    rw [resolvedPath_canonical rp _ _ pp abs hne hrel hrp, if_neg (fun h => hpre h.2)]
  · intro hrp
    exact resolvedPath_failed rp _ _ pp hne hrel hrp
  · intro t
    unfold stripRoot
    simp [List.append_assoc]
  · intro t ht
    unfold stripRoot
    rw [List.drop_left]
    simp [ht]

/-- C16, amended, at `foo.c` in `/root/src` under the root `/root`: the
canonical path `/root/src/foo.c` gives `src/foo.c`. -/
theorem path_root_stripping_witness :
    ((effectiveLoc exLocRel).filename ≠ [] ∧
      (effectiveLoc exLocRel).filename.head? ≠ some '/' ∧ "/root".toList ≠ [] ∧
      (getDebugLocWithColAndPath (fun p => some p) (some exLocRel) "/root".toList).1 =
        "src/foo.c".toList) ∧
    (getDebugLocWithColAndPath (fun p => some p) (some exLocRel) "/root".toList).1 =
      stripRoot "/root".toList "/root/src/foo.c".toList :=
  ⟨⟨by decide, by decide, by decide, by decide⟩,
    (path_root_stripping (fun p => some p) exLocRel "/root".toList
      (by decide) (by decide) (by decide)).1 "/root/src/foo.c".toList rfl
      ⟨"/src/foo.c".toList, by decide⟩⟩

/-- C19. Without a debug location the extractor yields an empty path, line 0
and column 0; with a direct location whose file name is not empty it yields the
line and column of that location and resolves its directory and file name; with
an empty direct file name and an inlined-at location it yields line and column
of the nearest inlined-at location and resolves the directory and file name of
that location, whatever the outer inlined-at locations; with an empty direct
file name and no inlined-at location it yields the direct line and column and an
empty path. -/
theorem location_fallback (rp : Str → Option Str) (pp : Str) :
    getDebugLocWithColAndPath rp none pp = ([], 0, 0) ∧
    (∀ Loc : DILocation, Loc.filename ≠ [] →
      getDebugLocWithColAndPath rp (some Loc) pp =
        (resolvedPath rp Loc.directory Loc.filename pp, Loc.line, Loc.column)) ∧
    (∀ (direct o : SrcLoc) (outer : List SrcLoc), direct.filename = [] →
      getDebugLocWithColAndPath rp (some ⟨direct, o :: outer⟩) pp =
        (resolvedPath rp o.directory o.filename pp, o.line, o.column)) ∧
    (∀ direct : SrcLoc, direct.filename = [] →
      getDebugLocWithColAndPath rp (some ⟨direct, []⟩) pp = ([], direct.line, direct.column)) := by
  refine ⟨rfl, ?_, ?_, ?_⟩
  · intro Loc h
    have he : effectiveLoc Loc = Loc.toSrcLoc := by
      have : Loc.filename.isEmpty = false := by simpa using h
      simp [effectiveLoc, this]
    rw [getDebugLoc_some, he]
  · intro direct o outer h
    have he : effectiveLoc ⟨direct, o :: outer⟩ = o := by
      simp [effectiveLoc, h]
    rw [getDebugLoc_some, he]
  · intro direct h
    have he : effectiveLoc ⟨direct, []⟩ = direct := by
      simp [effectiveLoc, h]
    rw [getDebugLoc_some, he, h, resolvedPath_empty_name]

/-- C19 at a location without file name inlined at `a.c:20`, itself inlined at
`b.c:30`: line 20, column 5 and the path of `a.c` are read. -/
theorem location_fallback_witness :
    getDebugLocWithColAndPath exEnv.real_path (some exLocInlined) exEnv.projRootDir =
        ("a.c".toList, 20, 5) ∧
      getDebugLocWithColAndPath exEnv.real_path (some exLocInlined) exEnv.projRootDir =
        (resolvedPath exEnv.real_path [] "a.c".toList exEnv.projRootDir, 20, 5) :=
  ⟨by decide,
    (location_fallback exEnv.real_path exEnv.projRootDir).2.2.1 ⟨7, 2, [], []⟩
      ⟨20, 5, [], "a.c".toList⟩ [⟨30, 1, [], "b.c".toList⟩] rfl⟩

/-! ## The function identifier (C11) -/

theorem funcLocScanBlock_eq (rp : Str → Option Str) (pp : Str)
    (insts : List (Option DILocation)) (cur : Str × Nat) (hcur : cur.1 = []) :
    (∀ r, ((insts.map fun I => getDebugLocWithPath rp I pp).filter
        fun r => !r.1.isEmpty).head? = some r → funcLocScanBlock rp pp insts cur = r) ∧
    (((insts.map fun I => getDebugLocWithPath rp I pp).filter
        fun r => !r.1.isEmpty).head? = none → (funcLocScanBlock rp pp insts cur).1 = []) := by
  induction insts generalizing cur with
  | nil => simp [funcLocScanBlock, hcur]
  | cons I rest ih =>
    unfold funcLocScanBlock
    simp only [List.map_cons, List.filter_cons]
    by_cases h : (getDebugLocWithPath rp I pp).1.isEmpty = true
    · simp only [h, Bool.not_true, Bool.false_eq_true, if_false]
      exact ih _ (by simpa using h)
    · simp [h]

theorem filter_head_append (a b : List (Str × Nat)) (p : Str × Nat → Bool) :
    ((a ++ b).filter p).head? =
      match (a.filter p).head? with
      | some r => some r
      | none => (b.filter p).head? := by
  rw [List.filter_append]
  cases h : a.filter p with
  | nil => simp
  | cons x l => simp

theorem funcLocScan_eq (rp : Str → Option Str) (pp : Str)
    (body : List (List (Option DILocation))) (cur : Str × Nat) (hcur : cur.1 = []) :
    (∀ r, firstLocated rp pp body = some r → funcLocScan rp pp body cur = r) ∧
    (firstLocated rp pp body = none → (funcLocScan rp pp body cur).1 = []) := by
  induction body generalizing cur with
  | nil => simp [funcLocScan, firstLocated, hcur]
  | cons BB rest ih =>
    unfold funcLocScan
    have hb := funcLocScanBlock_eq rp pp BB cur hcur
    have hsplit : firstLocated rp pp (BB :: rest) =
        match ((BB.map fun I => getDebugLocWithPath rp I pp).filter
            fun r => !r.1.isEmpty).head? with
        | some r => some r
        | none => firstLocated rp pp rest := by
      unfold firstLocated
      rw [List.flatten_cons, List.map_append, filter_head_append]
    rw [hsplit]
    cases hh : ((BB.map fun I => getDebugLocWithPath rp I pp).filter
        fun r => !r.1.isEmpty).head? with
    | some r =>
      have e := hb.1 r hh
      have hne : r.1.isEmpty = false := by
        have := List.head?_eq_some_iff.1 hh
        obtain ⟨tl, htl⟩ := this
        have hm : r ∈ (BB.map fun I => getDebugLocWithPath rp I pp).filter
            fun r => !r.1.isEmpty := by rw [htl]; simp
        simpa using (List.mem_filter.1 hm).2
      simp only [e, hne, Bool.not_false, if_true]
      simp
    | none =>
      have e := hb.2 hh
      have he : (funcLocScanBlock rp pp BB cur).1.isEmpty = true := by simpa using e
      simp only [he, Bool.not_true, Bool.false_eq_true, if_false]
      exact ih _ e

theorem hexdigit_ne_colon (x : Nat) (h : x < 16) : hexdigit x ≠ ':' := by
  interval_cases x <;> decide

theorem utohexstrLoop_no_colon (fuel x : Nat) (buf : Str) (h : ':' ∉ buf) :
    ':' ∉ utohexstrLoop fuel x buf := by
  induction fuel generalizing x buf with
  | zero => simpa [utohexstrLoop] using h
  | succ fuel ih =>
    unfold utohexstrLoop
    split
    · exact h
    · apply ih
      intro hm
      rcases List.mem_cons.1 hm with hm | hm
      · exact hexdigit_ne_colon (x % 16) (Nat.mod_lt _ (by decide)) hm.symm
      · exact h hm

theorem utohexstr_no_colon (x : Nat) : ':' ∉ utohexstr x := by
  unfold utohexstr
  split
  · decide
  · exact utohexstrLoop_no_colon 16 x [] (by simp)

/-- C11, as stated, fails: the only instruction of `exFusr` is in
`/usr/include/x.h`, so the function has no usable location, yet its identifier
is built from that location and not from the GUID. -/
theorem funcLocName_uses_unusable_location :
    firstUsable exEnv (exFusr.blocks.flatMap fun BB => BB.insts) = none ∧
    getFuncLocName exEnv.real_path exFusr.data exEnv.projRootDir =
      "/usr/include/x.h:5;f".toList ∧
    getFuncLocName exEnv.real_path exFusr.data exEnv.projRootDir ≠
      "0x".toList ++ utohexstr exFusr.guid ++ ";".toList ++ exFusr.name := by
  decide

theorem getFuncLocName_cases (rp : Str → Option Str) (F : FunctionData) (pp : Str) :
    getFuncLocName rp F pp =
      (match firstLocated rp pp F.body with
        | some p => p.1 ++ ":".toList ++ to_string p.2 ++ ";".toList ++ F.name
        | none => "0x".toList ++ utohexstr F.guid ++ ";".toList ++ F.name) ∧
    (getFuncLocName rp F pp = "0x".toList ++ utohexstr F.guid ++ ";".toList ++ F.name ↔
      firstLocated rp pp F.body = none) := by
  have hs := funcLocScan_eq rp pp F.body ([], 0) rfl
  have h1 : getFuncLocName rp F pp =
      (match firstLocated rp pp F.body with
        | some p => p.1 ++ ":".toList ++ to_string p.2 ++ ";".toList ++ F.name
        | none => "0x".toList ++ utohexstr F.guid ++ ";".toList ++ F.name) := by
    unfold getFuncLocName
    cases hf : firstLocated rp pp F.body with
    | some r =>
      have e := hs.1 r hf
      have hne : r.1.isEmpty = false := by
        unfold firstLocated at hf
        obtain ⟨tl, htl⟩ := List.head?_eq_some_iff.1 hf
        have hm : r ∈ (F.body.flatten.map fun I => getDebugLocWithPath rp I pp).filter
            fun r => !r.1.isEmpty := by rw [htl]; simp
        simpa using (List.mem_filter.1 hm).2
      simp only [e, hne, Bool.not_false, if_true]
    | none =>
      have e := hs.2 hf
      have he : (funcLocScan rp pp F.body ([], 0)).1.isEmpty = true := by simpa using e
      simp only [he, Bool.not_true, Bool.false_eq_true, if_false]
  refine ⟨h1, ?_⟩
  rw [h1]
  cases hf : firstLocated rp pp F.body with
  | none => simp
  | some r =>
    simp only [reduceCtorEq, iff_false]
    intro e
    have e2 := List.append_cancel_right e
    have e3 := List.append_cancel_right e2
    have hm : ':' ∈ r.1 ++ ":".toList ++ to_string r.2 := by simp
    rw [e3] at hm
    rcases List.mem_append.1 hm with hm | hm
    · revert hm; decide
    · exact utohexstr_no_colon F.guid hm

/-- C11, amended. The function `getFuncLocName` returns
`<filepath>:<line>;<symbolName>` for the first location with a non-empty
resolved file path met over the blocks and instructions in order, whatever its
line and prefix, and `0x<hex of the GUID>;<symbolName>` when there is no such
location; the second form is returned exactly in that case. -/
theorem getFuncLocName_rule (rp : Str → Option Str) (F : FunctionData) (pp : Str) :
    getFuncLocName rp F pp =
      (match firstLocated rp pp F.body with
        | some p => p.1 ++ ":".toList ++ to_string p.2 ++ ";".toList ++ F.name
        | none => "0x".toList ++ utohexstr F.guid ++ ";".toList ++ F.name) ∧
    (getFuncLocName rp F pp = "0x".toList ++ utohexstr F.guid ++ ";".toList ++ F.name ↔
      firstLocated rp pp F.body = none) :=
  getFuncLocName_cases rp F pp

/-! ## The block names (C12) -/

theorem digitChar_ne_colon (d : Nat) (h : d < 10) : Nat.digitChar d ≠ ':' := by
  interval_cases d <;> decide

theorem toDigitsCore_no_colon (fuel n : Nat) (ds : List Char) (h : ':' ∉ ds) :
    ':' ∉ Nat.toDigitsCore 10 fuel n ds := by
  induction fuel generalizing n ds with
  | zero => simpa [Nat.toDigitsCore] using h
  | succ fuel ih =>
    unfold Nat.toDigitsCore
    have hd : ':' ∉ Nat.digitChar (n % 10) :: ds := by
      intro hm
      rcases List.mem_cons.1 hm with hm | hm
      · exact digitChar_ne_colon (n % 10) (Nat.mod_lt _ (by decide)) hm.symm
      · exact h hm
    simp only
    split
    · exact hd
    · exact ih _ _ hd

theorem to_string_no_colon (k : Nat) : ':' ∉ to_string k := by
  unfold to_string Nat.repr Nat.toDigits
  exact toDigitsCore_no_colon _ _ [] (by simp)

theorem find_last_of_colon (a b : Str) (h : ':' ∉ b) :
    find_last_of (a ++ ':' :: b) ':' = some a.length := by
  unfold find_last_of
  have hrev : (a ++ ':' :: b).reverse = b.reverse ++ ':' :: a.reverse := by simp
  have hnone : b.reverse.findIdx? (fun x => x == ':') = none := by
    rw [List.findIdx?_eq_none_iff]
    intro x hx
    have : x ≠ ':' := fun e => h (e ▸ List.mem_reverse.1 hx)
    simpa using this
  have hidx : (a ++ ':' :: b).reverse.indexOf? ':' = some b.length := by
    rw [hrev]
    unfold List.indexOf?
    rw [List.findIdx?_append, hnone]
    simp
  rw [hidx]
  simp only [List.length_append, List.length_cons]
  congr 1
  omega

theorem nameAfterSet_of_fit (name : Str) (uniq : Option Nat)
    (h : name.length ≤ NonGlobalValueMaxNameSize) :
    nameAfterSet name uniq =
      name ++ (match uniq with
        | none => []
        | some k => to_string k) := by
  have hn : ¬ name.length > NonGlobalValueMaxNameSize := by omega
  cases uniq with
  | none => simp [nameAfterSet, hn]
  | some k => simp [nameAfterSet, hn]

theorem tmpBBNameOf_eq (id : Str) (uniq : Option Nat)
    (h : id.length < NonGlobalValueMaxNameSize) : tmpBBNameOf id uniq = id := by
  unfold tmpBBNameOf
  have hlen : (id ++ ":".toList).length ≤ NonGlobalValueMaxNameSize := by
    simp only [List.length_append]
    have : ":".toList.length = 1 := rfl
    omega
  have hform : ∃ b, ':' ∉ b ∧ nameAfterSet (id ++ ":".toList) uniq = id ++ ':' :: b := by
    rw [nameAfterSet_of_fit _ _ hlen]
    cases uniq with
    | none => exact ⟨[], by simp, by simp⟩
    | some k => exact ⟨to_string k, to_string_no_colon k, by simp⟩
  obtain ⟨b, hb, e⟩ := hform
  simp only [e, find_last_of_colon id b hb]
  simp

theorem mem_moduleWrites_bbnames (env : Env) (M : List Function) (r : Str) :
    r ∈ (moduleWrites env M).bbnames ↔
      ∃ F ∈ M, isBlacklisted F.data = false ∧ ∃ BB ∈ F.blocks, ∃ id,
        blockId env BB = some id ∧ r = tmpBBNameOf id BB.uniq := by
  simp only [moduleWrites, List.mem_flatMap]
  constructor
  · rintro ⟨F, hF, hr⟩
    unfold funcWrites at hr
    by_cases hb : isBlacklisted F.data = true
    · simp [hb] at hr
    · have hb2 : isBlacklisted F.data = false := by simpa using hb
      simp only [hb2, Bool.false_eq_true, if_false, blocksWrites, List.mem_flatMap] at hr
      obtain ⟨BB, hBB, hm⟩ := hr
      unfold nameWriteOf at hm
      cases hid : blockId env BB with
      | none => rw [hid] at hm; simp at hm
      | some id =>
        rw [hid] at hm
        exact ⟨F, hF, hb2, BB, hBB, id, hid, by simpa using hm⟩
  · rintro ⟨F, hF, hb, BB, hBB, id, hid, rfl⟩
    refine ⟨F, hF, ?_⟩
    unfold funcWrites
    simp only [hb, Bool.false_eq_true, if_false, blocksWrites, List.mem_flatMap]
    refine ⟨BB, hBB, ?_⟩
    unfold nameWriteOf
    rw [hid]
    simp

theorem mem_bbnames_lines (env : Env) (M : List Function) (r : Str) :
    r ∈ (firstPass env M).bbnames.lines ↔
      ∃ F ∈ M, isBlacklisted F.data = false ∧ ∃ BB ∈ F.blocks, ∃ id,
        blockId env BB = some id ∧ r = tmpBBNameOf id BB.uniq := by
  rw [(firstPass_tracks env M).2.1.2.2.1 r]
  exact mem_moduleWrites_bbnames env M r

theorem mem_bbnames_of_fit (env : Env) (M : List Function) (F : Function) (BB : BasicBlock)
    (id : Str) (hF : F ∈ M) (hbl : isBlacklisted F.data = false) (hBB : BB ∈ F.blocks)
    (hid : blockId env BB = some id) (hlen : id.length < NonGlobalValueMaxNameSize) :
    id ∈ (firstPass env M).bbnames.lines :=
  (mem_bbnames_lines env M id).2
    ⟨F, hF, hbl, BB, hBB, id, hid, (tmpBBNameOf_eq id BB.uniq hlen).symm⟩

theorem mem_moduleWrites_fnames (env : Env) (M : List Function) (r : Str) :
    r ∈ (moduleWrites env M).fnames ↔
      ∃ G ∈ M, isBlacklisted G.data = false ∧ funcHasBB env G = true ∧
        r = getFuncLocName env.real_path G.data env.projRootDir := by
  simp only [moduleWrites, List.mem_flatMap]
  constructor
  · rintro ⟨G, hG, hr⟩
    unfold funcWrites at hr
    by_cases hb : isBlacklisted G.data = true
    · simp [hb] at hr
    · have hb2 : isBlacklisted G.data = false := by simpa using hb
      simp only [hb2, Bool.false_eq_true, if_false] at hr
      by_cases hh : funcHasBB env G = true
      · simp only [hh, if_true, List.mem_singleton] at hr
        exact ⟨G, hG, hb2, hh, hr⟩
      · simp [hh] at hr
  · rintro ⟨G, hG, hb, hh, rfl⟩
    refine ⟨G, hG, ?_⟩
    unfold funcWrites
    simp [hb, hh]

theorem firstUsable_some_mem (env : Env) (insts : List Instruction) (p : Str × Nat)
    (h : firstUsable env insts = some p) : ∃ I ∈ insts, usableLoc env I = some p := by
  unfold firstUsable at h
  obtain ⟨tl, htl⟩ := List.head?_eq_some_iff.1 h
  have hm : p ∈ insts.filterMap (usableLoc env) := by rw [htl]; simp
  exact List.mem_filterMap.1 hm

theorem usableLoc_path_ne_nil (env : Env) (I : Instruction) (p : Str × Nat)
    (h : usableLoc env I = some p) :
    (getDebugLocWithPath env.real_path I.debugLoc env.projRootDir).1 ≠ [] := by
  unfold usableLoc at h
  simp only at h
  split at h
  · simp at h
  · rename_i hc
    simp only [Bool.or_eq_true, not_or, Bool.not_eq_true] at hc
    unfold getDebugLocWithPath
    simp only
    intro e
    rw [e] at hc
    simp at hc

theorem firstLocated_of_hasBB (env : Env) (F : Function) (h : funcHasBB env F = true) :
    ∃ p, firstLocated env.real_path env.projRootDir F.data.body = some p := by
  unfold funcHasBB at h
  rw [List.any_eq_true] at h
  obtain ⟨BB, hBB, hid⟩ := h
  unfold blockId at hid
  cases hfu : firstUsable env BB.insts with
  | none => rw [hfu] at hid; simp at hid
  | some q =>
    obtain ⟨I, hI, hu⟩ := firstUsable_some_mem env BB.insts q hfu
    have hne := usableLoc_path_ne_nil env I q hu
    have hmem : getDebugLocWithPath env.real_path I.debugLoc env.projRootDir ∈
        (F.data.body.flatten.map fun I => getDebugLocWithPath env.real_path I env.projRootDir).filter
          fun r => !r.1.isEmpty := by
      rw [List.mem_filter]
      refine ⟨?_, by simpa using hne⟩
      rw [List.mem_map]
      refine ⟨I.debugLoc, ?_, rfl⟩
      rw [List.mem_flatten]
      refine ⟨BB.insts.map fun I => I.debugLoc, ?_, List.mem_map.2 ⟨I, hI, rfl⟩⟩
      unfold Function.data
      exact List.mem_map.2 ⟨BB, hBB, rfl⟩
    unfold firstLocated
    cases hl : ((F.data.body.flatten.map fun I =>
        getDebugLocWithPath env.real_path I env.projRootDir).filter fun r => !r.1.isEmpty) with
    | nil => rw [hl] at hmem; simp at hmem
    | cons a l => exact ⟨a, rfl⟩

theorem hasBB_false_of_no_usable (env : Env) (F : Function)
    (h : ∀ BB ∈ F.blocks, ∀ I ∈ BB.insts, usableLoc env I = none) :
    funcHasBB env F = false := by
  unfold funcHasBB
  rw [List.any_eq_false]
  intro BB hBB
  unfold blockId
  cases hfu : firstUsable env BB.insts with
  | none => simp
  | some q =>
    obtain ⟨I, hI, hu⟩ := firstUsable_some_mem env BB.insts q hfu
    rw [h BB hBB I hI] at hu
    simp at hu

/-- C13, as stated, fails: in `exMcollide` the function `exFzero` has no block
with an identifier, and its identifier `a.c:0;b:5;g` is a record of the
function names all the same, written for `exFsemi`. -/
theorem fnames_record_without_named_block :
    exFzero ∈ exMcollide ∧ isBlacklisted exFzero.data = false ∧
    funcHasBB exEnv exFzero = false ∧
    getFuncLocName exEnv.real_path exFzero.data exEnv.projRootDir = "a.c:0;b:5;g".toList ∧
    getFuncLocName exEnv.real_path exFzero.data exEnv.projRootDir ∈
      (firstPass exEnv exMcollide).fnames.lines := by
  refine ⟨by simp [exMcollide], by decide, by decide, by decide, by decide⟩

/-- C13, amended. A record is in the function names exactly when it is the
identifier of a non-blacklisted function of the module that has a block with
an identifier; such a function has an instruction with a non-empty resolved
file path, so its identifier is `<filepath>:<line>;<symbol>` and not the one
built from the GUID; a function without any usable location has no block with
an identifier and writes no record. -/
theorem fnames_membership (env : Env) (M : List Function) :
    (∀ r, r ∈ (firstPass env M).fnames.lines ↔
      ∃ G ∈ M, isBlacklisted G.data = false ∧ funcHasBB env G = true ∧
        r = getFuncLocName env.real_path G.data env.projRootDir) ∧
    (∀ F : Function, funcHasBB env F = true →
      ∃ p, firstLocated env.real_path env.projRootDir F.data.body = some p ∧
        getFuncLocName env.real_path F.data env.projRootDir =
          p.1 ++ ":".toList ++ to_string p.2 ++ ";".toList ++ F.name) ∧
    (∀ F : Function, (∀ BB ∈ F.blocks, ∀ I ∈ BB.insts, usableLoc env I = none) →
      funcHasBB env F = false ∧ (funcWrites env F).fnames = []) := by
  refine ⟨?_, ?_, ?_⟩
  · intro r
    rw [(firstPass_tracks env M).2.2.2.1.2.2.1 r]
    exact mem_moduleWrites_fnames env M r
  · intro F h
    obtain ⟨p, hp⟩ := firstLocated_of_hasBB env F h
    refine ⟨p, hp, ?_⟩
    have := (getFuncLocName_cases env.real_path F.data env.projRootDir).1
    rw [hp] at this
    exact this
  · intro F h
    have hh := hasBB_false_of_no_usable env F h
    refine ⟨hh, ?_⟩
    unfold funcWrites
    split
    · rfl
    · simp [hh]

/-- C13, amended, at the module `exM`: `exF` has a block with an identifier
and its identifier `a.c:10;f` is in the function names; `exFusr` has no usable
location and writes nothing. -/
theorem fnames_membership_witness :
    "a.c:10;f".toList ∈ (firstPass exEnv exM).fnames.lines ∧
    (∃ p, firstLocated exEnv.real_path exEnv.projRootDir exF.data.body = some p ∧
      getFuncLocName exEnv.real_path exF.data exEnv.projRootDir =
        p.1 ++ ":".toList ++ to_string p.2 ++ ";".toList ++ exF.name) ∧
    (funcHasBB exEnv exFusr = false ∧ (funcWrites exEnv exFusr).fnames = []) :=
  ⟨((fnames_membership exEnv exM).1 "a.c:10;f".toList).2
      ⟨exF, List.mem_singleton.2 rfl, by decide, by decide, by decide⟩,
    (fnames_membership exEnv exM).2.1 exF (by decide),
    (fnames_membership exEnv exM).2.2 exFusr (by
      intro BB hBB I hI
      have hB : BB = ⟨[⟨some ⟨⟨5, 1, [], "/usr/include/x.h".toList⟩, []⟩, none⟩], none⟩ := by
        simpa [exFusr] using hBB
      subst hB
      have hI2 : I = ⟨some ⟨⟨5, 1, [], "/usr/include/x.h".toList⟩, []⟩, none⟩ := by
        simpa using hI
      subst hI2
      decide)⟩

/-! ## The target scenario (C14) -/

theorem mem_moduleWrites_ftargets (env : Env) (M : List Function) (r : Str) :
    r ∈ (moduleWrites env M).ftargets ↔
      ∃ G ∈ M, isBlacklisted G.data = false ∧ funcHasBB env G = true ∧
        funcHasTarget env G = true ∧
        r = getFuncLocName env.real_path G.data env.projRootDir := by
  simp only [moduleWrites, List.mem_flatMap]
  constructor
  · rintro ⟨G, hG, hr⟩
    unfold funcWrites at hr
    by_cases hb : isBlacklisted G.data = true
    · simp [hb] at hr
    · have hb2 : isBlacklisted G.data = false := by simpa using hb
      simp only [hb2, Bool.false_eq_true, if_false] at hr
      by_cases hh : (funcHasBB env G && funcHasTarget env G) = true
      · simp only [hh, if_true, List.mem_singleton] at hr
        rw [Bool.and_eq_true] at hh
        exact ⟨G, hG, hb2, hh.1, hh.2, hr⟩
      · simp [hh] at hr
  · rintro ⟨G, hG, hb, hh, ht, rfl⟩
    refine ⟨G, hG, ?_⟩
    unfold funcWrites
    simp [hb, hh, ht]

theorem mem_ftargets_lines (env : Env) (M : List Function) (r : Str) :
    r ∈ (firstPass env M).ftargets.lines ↔
      ∃ G ∈ M, isBlacklisted G.data = false ∧ funcHasBB env G = true ∧
        funcHasTarget env G = true ∧
        r = getFuncLocName env.real_path G.data env.projRootDir := by
  rw [(firstPass_tracks env M).2.2.2.2.1.2.2.1 r]
  exact mem_moduleWrites_ftargets env M r

theorem blockId_of_first (env : Env) (BB : BasicBlock) (I : Instruction)
    (rest : List Instruction) (p : Str × Nat) (hI : BB.insts = I :: rest)
    (hu : usableLoc env I = some p) : blockId env BB = some (locName p) := by
  unfold blockId
  rw [hI, firstUsable_cons_some env I rest p hu]
  rfl

theorem funcHasBB_of_blockId (env : Env) (F : Function) (BB : BasicBlock) (id : Str)
    (hBB : BB ∈ F.blocks) (h : blockId env BB = some id) : funcHasBB env F = true := by
  unfold funcHasBB
  rw [List.any_eq_true]
  exact ⟨BB, hBB, by simp [h]⟩

theorem funcHasTarget_of_hit (env : Env) (F : Function) (BB : BasicBlock) (I : Instruction)
    (p : Str × Nat) (hBB : BB ∈ F.blocks) (hI : I ∈ BB.insts)
    (hu : usableLoc env I = some p) (ht : isTargetLoc env p = true) :
    funcHasTarget env F = true := by
  unfold funcHasTarget
  rw [List.any_eq_true]
  refine ⟨BB, hBB, ?_⟩
  unfold instsHit
  rw [List.any_eq_true]
  exact ⟨I, hI, by simp [hu, ht]⟩

/-- C14, as stated, fails: with the target `src/foo.c:12` and one function
whose block has its only instruction resolved to `/root/src/foo.c`, line 12,
column 3, the block names hold `/root/src/foo.c:12`, but the new target blocks
and the function targets are empty. -/
theorem scenario_root_path_is_no_target :
    exEnvFoo.bbTargets = [("src/foo.c".toList, 12)] ∧
    isBlacklisted exFfooAbs.data = false ∧
    getDebugLocWithColAndPath exEnvFoo.real_path exIfooAbs.debugLoc exEnvFoo.projRootDir =
      ("/root/src/foo.c".toList, 12, 3) ∧
    (firstPass exEnvFoo [exFfooAbs]).bbnames.lines = ["/root/src/foo.c:12".toList] ∧
    (firstPass exEnvFoo [exFfooAbs]).bbtargets_new.lines = [] ∧
    (firstPass exEnvFoo [exFfooAbs]).ftargets.lines = [] := by
  decide

/-- C14, amended. With the target list `src/foo.c:12` and a block of a
non-blacklisted function whose first instruction resolves to a usable file path
`fp`, line 12, column 3: the block names hold `fp:12` when `fp:12` is shorter
than 1024 characters, the limit of LLVM on the name of a block; when `fp` is
`src/foo.c` the block names and the new target blocks hold `src/foo.c:12` and
the function targets hold the identifier of the function; when `fp` is another
path, such as `<root>/src/foo.c`, the location of the instruction is no
target. -/
theorem scenario_target_block (env : Env) (M : List Function) (F : Function)
    (BB : BasicBlock) (I : Instruction) (rest : List Instruction) (fp : Str)
    (hT : env.bbTargets = [("src/foo.c".toList, 12)])
    (hF : F ∈ M) (hbl : isBlacklisted F.data = false) (hBB : BB ∈ F.blocks)
    (hI : BB.insts = I :: rest)
    (_hloc : getDebugLocWithColAndPath env.real_path I.debugLoc env.projRootDir = (fp, 12, 3))
    (hu : usableLoc env I = some (fp, 12)) :
    ((locName (fp, 12)).length < NonGlobalValueMaxNameSize →
      locName (fp, 12) ∈ (firstPass env M).bbnames.lines) ∧
    (fp = "src/foo.c".toList →
      locName (fp, 12) ∈ (firstPass env M).bbnames.lines ∧
      locName (fp, 12) ∈ (firstPass env M).bbtargets_new.lines ∧
      getFuncLocName env.real_path F.data env.projRootDir ∈ (firstPass env M).ftargets.lines) ∧
    (fp ≠ "src/foo.c".toList → isTargetLoc env (fp, 12) = false) := by
  have hid := blockId_of_first env BB I rest (fp, 12) hI hu
  have hIm : I ∈ BB.insts := by rw [hI]; simp
  refine ⟨?_, ?_, ?_⟩
  · intro hlen
    exact mem_bbnames_of_fit env M F BB _ hF hbl hBB hid hlen
  · intro hfp
    have ht : (fp, 12) ∈ env.bbTargets := by rw [hT, hfp]; simp
    refine ⟨?_, ?_, ?_⟩
    · refine mem_bbnames_of_fit env M F BB _ hF hbl hBB hid ?_
      rw [hfp]
      decide
    · rw [(firstPass_tracks env M).1.2.2.1]
      exact (mem_moduleWrites_targets env M _).2
        ⟨F, hF, hbl, BB, hBB, hid, I, hIm, (fp, 12), hu, ht⟩
    · exact (mem_ftargets_lines env M _).2
        ⟨F, hF, hbl, funcHasBB_of_blockId env F BB _ hBB hid,
          funcHasTarget_of_hit env F BB I (fp, 12) hBB hIm hu ((isTargetLoc_iff env _).2 ht), rfl⟩
  · intro hfp
    cases hc : isTargetLoc env (fp, 12) with
    | false => rfl
    | true =>
      have := (isTargetLoc_iff env (fp, 12)).1 hc
      rw [hT] at this
      simp at this
      exact absurd this hfp

/-- C14, amended, at the function `exFfooRel`: `foo.c` in `/root/src` resolves
to `src/foo.c`, and the three artifacts hold the records. -/
theorem scenario_target_block_witness :
    (exEnvFoo.bbTargets = [("src/foo.c".toList, 12)] ∧ isBlacklisted exFfooRel.data = false ∧
      getDebugLocWithColAndPath exEnvFoo.real_path exIfooRel.debugLoc exEnvFoo.projRootDir =
        ("src/foo.c".toList, 12, 3) ∧
      usableLoc exEnvFoo exIfooRel = some ("src/foo.c".toList, 12)) ∧
    (locName ("src/foo.c".toList, 12) ∈ (firstPass exEnvFoo [exFfooRel]).bbnames.lines ∧
      locName ("src/foo.c".toList, 12) ∈ (firstPass exEnvFoo [exFfooRel]).bbtargets_new.lines ∧
      getFuncLocName exEnvFoo.real_path exFfooRel.data exEnvFoo.projRootDir ∈
        (firstPass exEnvFoo [exFfooRel]).ftargets.lines) :=
  ⟨⟨rfl, by decide, by decide, by decide⟩,
    (scenario_target_block exEnvFoo [exFfooRel] exFfooRel ⟨[exIfooRel], none⟩ exIfooRel []
      "src/foo.c".toList rfl (List.mem_singleton.2 rfl) (by decide)
      (List.mem_singleton.2 rfl) rfl (by decide) (by decide)).2.1 rfl⟩

/-! ## Loading of the target list (C17) -/


theorem loadTargetStep_eq (lenv : LoadEnv) (acc : List (Str × Nat)) (l : Str) :
    loadTargetStep lenv acc l =
      if targetLineOk lenv l = true then some (acc ++ [targetPairOf lenv l]) else none := by
  unfold loadTargetStep targetLineOk targetPairOf
  simp only
  by_cases h1 : lenv.atoi (targetLineTextOf (trimStr l)) ≤ 0
  · have : ¬ 0 < lenv.atoi (targetLineTextOf (trimStr l)) := by omega
    simp [h1, this]
  · have h2 : 0 < lenv.atoi (targetLineTextOf (trimStr l)) := by omega
    simp only [h1, if_false, h2, decide_True, Bool.true_and]
    cases lenv.isRegularFile (lenv.projRootDir ++ "/".toList ++ targetFileNameOf (trimStr l)) <;>
      simp

theorem loadTargets_eq (lenv : LoadEnv) (lines : List Str) (acc : List (Str × Nat)) :
    loadTargets lenv lines acc =
      if lines.all (targetLineOk lenv) = true then
        some (acc ++ lines.map (targetPairOf lenv))
      else none := by
  induction lines generalizing acc with
  | nil => simp [loadTargets]
  | cons l rest ih =>
    unfold loadTargets
    rw [loadTargetStep_eq]
    by_cases h : targetLineOk lenv l = true
    · simp only [h, if_true, ih, List.all_cons, Bool.true_and, List.map_cons]
      split <;> simp
    · simp [h]

/-- C17. When the text after the last `:` of some trimmed line converts by
`atoi` to a value that is not positive, the loading returns with an error and
no function is visited; when the loading succeeds the target list has the pair
of every line, in the order of the lines, and every line number is positive;
the loading succeeds exactly when every line has a positive number and names a
regular file under the project root. -/
theorem loadTargets_rule (lenv : LoadEnv) (lines : List Str) :
    ((∃ l ∈ lines, lenv.atoi (targetLineTextOf (trimStr l)) ≤ 0) →
      loadTargets lenv lines [] = none ∧
      ∀ env M, mainTraversal lenv env lines M = none) ∧
    (∀ bbTargets, loadTargets lenv lines [] = some bbTargets →
      bbTargets = lines.map (targetPairOf lenv) ∧ bbTargets.length = lines.length ∧
      ∀ p ∈ bbTargets, 0 < p.2) ∧
    (loadTargets lenv lines [] = some (lines.map (targetPairOf lenv)) ↔
      ∀ l ∈ lines, 0 < lenv.atoi (targetLineTextOf (trimStr l)) ∧
        lenv.isRegularFile
          (lenv.projRootDir ++ "/".toList ++ targetFileNameOf (trimStr l)) = true) := by
  have hall : lines.all (targetLineOk lenv) = true ↔
      ∀ l ∈ lines, 0 < lenv.atoi (targetLineTextOf (trimStr l)) ∧
        lenv.isRegularFile
          (lenv.projRootDir ++ "/".toList ++ targetFileNameOf (trimStr l)) = true := by
    rw [List.all_eq_true]
    constructor
    · intro h l hl
      have := h l hl
      unfold targetLineOk at this
      simpa using this
    · intro h l hl
      unfold targetLineOk
      simpa using h l hl
  refine ⟨?_, ?_, ?_⟩
  · rintro ⟨l, hl, hle⟩
    have hnot : ¬ lines.all (targetLineOk lenv) = true := by
      intro h
      have := (hall.1 h l hl).1
      omega
    have hnone : loadTargets lenv lines [] = none := by
      rw [loadTargets_eq, if_neg hnot]
    refine ⟨hnone, ?_⟩
    intro env M
    unfold mainTraversal
    rw [hnone]
  · intro ts hts
    rw [loadTargets_eq] at hts
    split at hts
    · rename_i h
      simp only [List.nil_append, Option.some.injEq] at hts
      subst hts
      refine ⟨rfl, by simp, ?_⟩
      intro p hp
      obtain ⟨l, hl, rfl⟩ := List.mem_map.1 hp
      have := (hall.1 h l hl).1
      unfold targetPairOf
      simp only
      omega
    · simp at hts
  · rw [loadTargets_eq, ← hall]
    split
    · rename_i h; simp [h]
    · rename_i h; simp [h]

/-- C17 on two texts: `src/foo.c:12` and ` a.c:3 ` load as two pairs, and a
second line `a.c:0` makes the loading fail. -/
theorem loadTargets_rule_witness :
    loadTargets exLoadEnv ["src/foo.c:12".toList, " a.c:3 ".toList] [] =
      some [("src/foo.c".toList, 12), ("a.c".toList, 3)] ∧
    (loadTargets exLoadEnv ["src/foo.c:12".toList, "a.c:0".toList] [] = none ∧
      ∀ env M,
        mainTraversal exLoadEnv env ["src/foo.c:12".toList, "a.c:0".toList] M = none) :=
  ⟨by decide,
    (loadTargets_rule exLoadEnv ["src/foo.c:12".toList, "a.c:0".toList]).1
      ⟨"a.c:0".toList, by simp, by decide⟩⟩

/-! ## The rename pass (C18) -/


theorem setNameGlobal_free (taken : List Str) (cur name : Str) (last : Nat)
    (h : name ∉ taken) : setNameGlobal taken cur name last = (name, last) := by
  unfold setNameGlobal
  by_cases hc : cur = name
  · simp [hc]
  · simp [hc, h]

theorem renameLoop_names (rp : Str → Option Str) (pp : Str) (others : List Str)
    (rest done : List Function) (last : Nat)
    (hnd : (rest.map fun F => getFuncLocName rp F.data pp).Nodup)
    (hoth : ∀ F ∈ rest, getFuncLocName rp F.data pp ∉ others)
    (hdone : ∀ F ∈ rest, getFuncLocName rp F.data pp ∉ done.map fun G => G.name)
    (hnm : ∀ F ∈ rest, ∀ G ∈ rest, getFuncLocName rp F.data pp ≠ G.name) :
    (renameLoop rp pp others done rest last).map (fun F => F.name) =
        done.map (fun F => F.name) ++ rest.map (fun F => getFuncLocName rp F.data pp) ∧
      (renameLoop rp pp others done rest last).map (fun F => (F.guid, F.blocks)) =
        (done ++ rest).map (fun F => (F.guid, F.blocks)) := by
  induction rest generalizing done last with
  | nil => simp [renameLoop]
  | cons F rest ih =>
    unfold renameLoop
    simp only
    have hfree : getFuncLocName rp F.data pp ∉
        others ++ done.map (fun G => G.name) ++ rest.map (fun G => G.name) := by
      intro hm
      rcases List.mem_append.1 hm with hm | hm
      · rcases List.mem_append.1 hm with hm | hm
        · exact hoth F (by simp) hm
        · exact hdone F (by simp) hm
      · obtain ⟨G, hG, e⟩ := List.mem_map.1 hm
        exact hnm F (by simp) G (by simp [hG]) e.symm
    rw [setNameGlobal_free _ _ _ _ hfree]
    rw [List.map_cons, List.nodup_cons] at hnd
    have := ih (done ++ [{ F with name := getFuncLocName rp F.data pp }]) last hnd.2
      (fun G hG => hoth G (by simp [hG]))
      (by
        intro G hG hm
        rw [List.map_append, List.mem_append] at hm
        rcases hm with hm | hm
        · exact hdone G (by simp [hG]) hm
        · simp only [List.map_cons, List.map_nil, List.mem_singleton] at hm
          apply hnd.1
          rw [← hm]
          exact List.mem_map.2 ⟨G, hG, rfl⟩)
      (fun G hG H hH => hnm G (by simp [hG]) H (by simp [hH]))
    constructor
    · rw [this.1]
      simp
    · rw [this.2]
      simp

/-- C18, as stated, fails: the two functions of `exMcollide` have the same
identifier `a.c:0;b:5;g`; the first one takes it as its name, and the second
one is then named `a.c:0;b:5;g.1`, which is not its identifier. -/
theorem rename_collision :
    (exMcollide.map fun F => getFuncLocName exEnv.real_path F.data exEnv.projRootDir) =
      ["a.c:0;b:5;g".toList, "a.c:0;b:5;g".toList] ∧
    (exMcollide.map fun F => F.name) = ["g".toList, "b:5;g".toList] ∧
    ((renamePass exEnv.real_path exEnv.projRootDir [] exMcollide 0).map fun F => F.name) =
      ["a.c:0;b:5;g".toList, "a.c:0;b:5;g.1".toList] ∧
    ((renamePass exEnv.real_path exEnv.projRootDir [] exMcollide 0).map fun F => F.name) ≠
      (exMcollide.map fun F => getFuncLocName exEnv.real_path F.data exEnv.projRootDir) := by
  decide

/-- C18, amended. When the identifiers of the functions of the module differ
from one another, from the names of the other global values and from the names
of the functions, the rename pass gives every function the identifier that
`getFuncLocName` computes for it on the module before the pass, and changes
nothing else; this identifier is the record the first pass writes to the
function names for a function with a named block, and the callee part of the
call edges written for calls of the function. -/
theorem renamePass_uses_identifier (env : Env) (others : List Str) (M : List Function)
    (lastUnique : Nat)
    (hnd : (M.map fun F => getFuncLocName env.real_path F.data env.projRootDir).Nodup)
    (hoth : ∀ F ∈ M, getFuncLocName env.real_path F.data env.projRootDir ∉ others)
    (hnm : ∀ F ∈ M, ∀ G ∈ M, getFuncLocName env.real_path F.data env.projRootDir ≠ G.name) :
    ((renamePass env.real_path env.projRootDir others M lastUnique).map fun F => F.name) =
      (M.map fun F => getFuncLocName env.real_path F.data env.projRootDir) ∧
    ((renamePass env.real_path env.projRootDir others M lastUnique).map
        fun F => (F.guid, F.blocks)) = (M.map fun F => (F.guid, F.blocks)) ∧
    (∀ F ∈ M, isBlacklisted F.data = false → funcHasBB env F = true →
      getFuncLocName env.real_path F.data env.projRootDir ∈ (firstPass env M).fnames.lines) ∧
    (∀ (F G : Function) (BB : BasicBlock) (I : Instruction) (p : Str × Nat),
      G ∈ M → isBlacklisted G.data = false → BB ∈ G.blocks → I ∈ BB.insts →
      usableLoc env I = some p → I.call = some (some F.data) →
      isBlacklisted F.data = false →
      ∃ id, blockId env BB = some id ∧
        id ++ ",".toList ++ getFuncLocName env.real_path F.data env.projRootDir ∈
          (firstPass env M).bbcalls.lines) := by
  have h := renameLoop_names env.real_path env.projRootDir others M [] lastUnique hnd hoth
    (by simp) hnm
  refine ⟨by simpa [renamePass] using h.1, by simpa [renamePass] using h.2, ?_, ?_⟩
  · intro F hF hb hh
    rw [(firstPass_tracks env M).2.2.2.1.2.2.1]
    exact (mem_moduleWrites_fnames env M _).2 ⟨F, hF, hb, hh, rfl⟩
  · intro F G BB I p hG hb hBB hI hu hc hcb
    obtain ⟨id, hid, _⟩ := blockId_of_usable env BB I p hI hu
    refine ⟨id, hid, ?_⟩
    rw [(firstPass_tracks env M).2.2.1.2.2.1]
    exact (mem_moduleWrites_calls env M _).2
      ⟨G, hG, hb, BB, hBB, id, hid, I, hI, p, hu, F.data, hc, hcb, rfl⟩

/-- C18, amended, at the module of `exF` and `exFmalloc`: the names after the
pass are `a.c:10;f` and `a.c:10;malloc_usable_size`. -/
theorem renamePass_uses_identifier_witness :
    ((renamePass exEnv.real_path exEnv.projRootDir [] [exF, exFmalloc] 7).map fun F => F.name) =
      ["a.c:10;f".toList, "a.c:10;malloc_usable_size".toList] ∧
    ((renamePass exEnv.real_path exEnv.projRootDir [] [exF, exFmalloc] 7).map fun F => F.name) =
      ([exF, exFmalloc].map fun F =>
        getFuncLocName exEnv.real_path F.data exEnv.projRootDir) :=
  ⟨by decide,
    (renamePass_uses_identifier exEnv [] [exF, exFmalloc] 7 (by decide) (by decide)
      (by decide)).1⟩

/-! ## Line de-duplication is idempotent (C21) -/

theorem blank_output_is_nil (xs : List Str) :
    ∀ l ∈ removeDupLines xs, isBlank l = true → l = [] := by
  unfold removeDupLines
  induction xs using List.reverseRecOn with
  | nil => simp [removeDupLinesLoop]
  | append_singleton xs x ih =>
    rw [removeDupLinesLoop_snoc]
    by_cases hb : isBlank x = true
    · rw [step_blank _ _ hb]
      intro l hl hbl
      rcases List.mem_append.1 hl with hl | hl
      · exact ih l hl hbl
      · simpa using hl
    · have hb2 : isBlank x = false := by simpa using hb
      by_cases hc : trimStr x ∈ (removeDupLinesLoop xs).1
      · rw [step_seen _ _ hb2 hc]
        exact ih
      · rw [step_new _ _ hb2 hc]
        intro l hl hbl
        rcases List.mem_append.1 hl with hl | hl
        · exact ih l hl hbl
        · have : l = x := by simpa using hl
          rw [this, hb2] at hbl
          simp at hbl

theorem removeDupLinesLoop_fixed (l : List Str)
    (hblank : ∀ x ∈ l, isBlank x = true → x = [])
    (hnd : ((l.filter fun x => !(isBlank x)).map trimStr).Nodup) :
    (removeDupLinesLoop l).2 = l := by
  induction l using List.reverseRecOn with
  | nil => simp [removeDupLinesLoop]
  | append_singleton xs x ih =>
    have hblank2 : ∀ y ∈ xs, isBlank y = true → y = [] :=
      fun y hy => hblank y (by simp [hy])
    rw [List.filter_append, List.map_append, List.nodup_append] at hnd
    have ih2 := ih hblank2 hnd.1
    rw [removeDupLinesLoop_snoc]
    by_cases hb : isBlank x = true
    · rw [step_blank _ _ hb, ih2, hblank x (by simp) hb]
    · have hb2 : isBlank x = false := by simpa using hb
      have hne : trimStr x ≠ [] := fun h => hb ((isBlank_iff x).2 h)
      have hc : trimStr x ∉ (removeDupLinesLoop xs).1 := by
        intro hm
        obtain ⟨_, hm2⟩ := (mem_lineSet xs (trimStr x)).1 hm
        obtain ⟨y, hy, e⟩ := List.mem_map.1 hm2
        have hyb : isBlank y = false := by
          cases hyb : isBlank y with
          | false => rfl
          | true =>
            have := (isBlank_iff y).1 hyb
            rw [this] at e
            exact absurd e.symm hne
        have hdis := hnd.2.2
        have h1 : trimStr x ∈ (xs.filter fun x => !(isBlank x)).map trimStr :=
          List.mem_map.2 ⟨y, List.mem_filter.2 ⟨hy, by simp [hyb]⟩, e⟩
        have h2 : trimStr x ∈ ([x].filter fun x => !(isBlank x)).map trimStr := by
          simp [List.filter_cons, hb2]
        exact hdis h1 h2
      rw [step_new _ _ hb2 hc, ih2]

/-- C21. Applying `removeDupLines` to its own output returns that output. -/
theorem removeDupLines_idempotent (lines : List Str) :
    removeDupLines (removeDupLines lines) = removeDupLines lines := by
  have h := removeDupLinesLoop_fixed (removeDupLines lines) (blank_output_is_nil lines)
    (by rw [kept_eq_firstOccurrences]; exact nodup_firstOccurrences lines)
  exact h

/-! ## Block identifiers in the artifacts (C22) -/

theorem located_of_hasBB (env : Env) (F : Function) (h : funcHasBB env F = true) :
    ∃ p, firstLocated env.real_path env.projRootDir F.data.body = some p ∧
      getFuncLocName env.real_path F.data env.projRootDir =
        p.1 ++ ":".toList ++ to_string p.2 ++ ";".toList ++ F.name ∧
      getFuncLocName env.real_path F.data env.projRootDir ≠
        "0x".toList ++ utohexstr F.guid ++ ";".toList ++ F.name := by
  obtain ⟨p, hp⟩ := firstLocated_of_hasBB env F h
  have hc := getFuncLocName_cases env.real_path F.data env.projRootDir
  refine ⟨p, hp, ?_, ?_⟩
  · have := hc.1
    rw [hp] at this
    exact this
  · intro e
    have := hc.2.1 e
    rw [hp] at this
    simp at this

theorem hasBB_of_writes (env : Env) (F : Function)
    (h : (funcWrites env F).fnames ≠ [] ∨ (funcWrites env F).ftargets ≠ []) :
    isBlacklisted F.data = false ∧ funcHasBB env F = true := by
  unfold funcWrites at h
  by_cases hb : isBlacklisted F.data = true
  · simp [hb] at h
  · have hb2 : isBlacklisted F.data = false := by simpa using hb
    refine ⟨hb2, ?_⟩
    cases hh : funcHasBB env F with
    | true => rfl
    | false => simp [hb2, hh] at h

/-- C23, amended. A function for which the traversal writes to the function
names or to the function targets has an instruction with a non-empty resolved
file path, and its identifier is `<filepath>:<line>;<symbol>` and not
`0x<hex GUID>;<symbol>` built from its own GUID and symbol; every record of the
two artifacts is written for such a function of the module and is its
identifier (the same text may be the GUID identifier of another function).
The second form does occur as the callee part of a call edge (`0xFF;g` in
`exM`) and as a function name after the rename pass (`0xFF;h` for `exFnoLoc`,
which writes nothing to the function names). -/
theorem hash_form_not_in_function_artifacts (env : Env) (M : List Function) :
    (∀ F : Function, (funcWrites env F).fnames ≠ [] ∨ (funcWrites env F).ftargets ≠ [] →
      ∃ p, firstLocated env.real_path env.projRootDir F.data.body = some p ∧
        getFuncLocName env.real_path F.data env.projRootDir =
          p.1 ++ ":".toList ++ to_string p.2 ++ ";".toList ++ F.name ∧
        getFuncLocName env.real_path F.data env.projRootDir ≠
          "0x".toList ++ utohexstr F.guid ++ ";".toList ++ F.name) ∧
    (∀ r, r ∈ (firstPass env M).fnames.lines ∨ r ∈ (firstPass env M).ftargets.lines →
      ∃ G ∈ M, isBlacklisted G.data = false ∧
        r = getFuncLocName env.real_path G.data env.projRootDir ∧
        ∃ p, firstLocated env.real_path env.projRootDir G.data.body = some p ∧
          r = p.1 ++ ":".toList ++ to_string p.2 ++ ";".toList ++ G.name ∧
          r ≠ "0x".toList ++ utohexstr G.guid ++ ";".toList ++ G.name) ∧
    ((firstPass exEnv exM).bbcalls.lines =
        ["a.c:10".toList ++ ",".toList ++ ("0x".toList ++ utohexstr exCallee.guid ++
          ";".toList ++ exCallee.name)] ∧
      ((renamePass exEnv.real_path exEnv.projRootDir [] [exFnoLoc] 0).map fun F => F.name) =
        ["0x".toList ++ utohexstr exFnoLoc.guid ++ ";".toList ++ exFnoLoc.name] ∧
      (firstPass exEnv [exFnoLoc]).fnames.lines = [] ∧
      (firstPass exEnv [exFnoLoc]).ftargets.lines = []) := by
  refine ⟨?_, ?_, by decide, by decide, by decide, by decide⟩
  · intro F h
    exact located_of_hasBB env F (hasBB_of_writes env F h).2
  · intro r hr
    have hG : ∃ G ∈ M, isBlacklisted G.data = false ∧ funcHasBB env G = true ∧
        r = getFuncLocName env.real_path G.data env.projRootDir := by
      rcases hr with hr | hr
      · exact (mem_moduleWrites_fnames env M r).1
          (((firstPass_tracks env M).2.2.2.1.2.2.1 r).1 hr)
      · obtain ⟨G, hG, hb, hh, _, e⟩ := (mem_ftargets_lines env M r).1 hr
        exact ⟨G, hG, hb, hh, e⟩
    obtain ⟨G, hGm, hb, hh, e⟩ := hG
    obtain ⟨p, hp, h1, h2⟩ := located_of_hasBB env G hh
    exact ⟨G, hGm, hb, e, p, hp, e ▸ h1, e ▸ h2⟩

/-- C23, amended, at the module `exM`: the record `a.c:10;f` of the function names and of
the function targets is the identifier of `exF`, built from the location
`a.c:10`. -/
theorem hash_form_not_in_function_artifacts_witness :
    ((firstPass exEnv exM).fnames.lines = ["a.c:10;f".toList] ∧
      (firstPass exEnv exM).ftargets.lines = ["a.c:10;f".toList]) ∧
    ∃ G ∈ exM, isBlacklisted G.data = false ∧
      "a.c:10;f".toList = getFuncLocName exEnv.real_path G.data exEnv.projRootDir ∧
      ∃ p, firstLocated exEnv.real_path exEnv.projRootDir G.data.body = some p ∧
        "a.c:10;f".toList = p.1 ++ ":".toList ++ to_string p.2 ++ ";".toList ++ G.name ∧
        "a.c:10;f".toList ≠ "0x".toList ++ utohexstr G.guid ++ ";".toList ++ G.name :=
  ⟨⟨by decide, by decide⟩,
    (hash_form_not_in_function_artifacts exEnv exM).2.1 "a.c:10;f".toList
      (Or.inl (by decide))⟩

/-! ## Block names longer than the limit of LLVM (C12, C22) -/

/-- C23, as stated, fails: in `exMhash` the function `x:5;g` has no instruction
with a resolved file path and `getFuncLocName` takes the branch of the GUID for
it; its identifier `0xFF;x:5;g` is a record of the function names all the
same, written for the function `g` of the file `0xFF;x`. -/
theorem hash_form_text_in_function_names :
    exFhashName ∈ exMhash ∧ isBlacklisted exFhashName.data = false ∧
    firstLocated exEnv.real_path exEnv.projRootDir exFhashName.data.body = none ∧
    getFuncLocName exEnv.real_path exFhashName.data exEnv.projRootDir =
      "0x".toList ++ utohexstr exFhashName.guid ++ ";".toList ++ exFhashName.name ∧
    getFuncLocName exEnv.real_path exFhashName.data exEnv.projRootDir = "0xFF;x:5;g".toList ∧
    (firstPass exEnv exMhash).fnames.lines = ["0xFF;x:5;g".toList] ∧
    getFuncLocName exEnv.real_path exFhashName.data exEnv.projRootDir ∈
      (firstPass exEnv exMhash).fnames.lines := by
  refine ⟨by simp [exMhash], by decide, by decide, by decide, by decide, by decide, by decide⟩

end ParseBitcode
